import Mathlib

/-!
# Bidding war: the auction core of `bidding.go`

A shallow embedding of `Bid`, `Item` and `Auction` with the operations
`NewAuction`, `ChangeTime`, `TryBid`, `GetWinner` and `GetBidHistory`, and the
proofs of the properties stated about them.

Modelling conventions.

* `float64` amounts are kept as their IEEE-754 binary64 bit pattern.  The code
  only ever compares amounts (`>=` and `<`), so the model gives the exact
  comparison semantics of Go: a comparison with a NaN operand is false, and
  `-0` and `+0` compare equal.
* `time.Time` values are instants on the wall clock, counted in nanoseconds.
  `AuctionOngoing` reads `time.Now().UTC()`; the clock reading is the explicit
  argument `now` of every operation that reads the clock.
* The properties of sequences of calls take the calls one at a time.  For the
  properties of concurrent calls the goroutines are modelled access by access
  (`System`), with the `sync.RWMutex` as `MutexState`: the model lets a lock be
  taken whenever no other holder excludes it, which allows at least every
  schedule that the Go mutex allows.
* `CurrentWinner *Bid` and `Item *Item` are modelled by value: the callers of
  the package never write through these pointers.
-/

/-! ## float64 comparison -/

/-- An IEEE-754 binary64 value, given by its 64-bit pattern. -/
structure Float64 where
  bits : Nat
deriving DecidableEq, Repr

namespace Float64

/-- The sign bit (bit 63). -/
def sign (x : Float64) : Bool := decide (x.bits / 2 ^ 63 % 2 = 1)

/-- The biased exponent and the fraction: the low 63 bits. -/
def mag (x : Float64) : Nat := x.bits % 2 ^ 63

/-- A NaN has all exponent bits set and a non-zero fraction. -/
def isNaN (x : Float64) : Bool := decide (0x7FF0000000000000 < x.mag)

/-- The position of a non-NaN value on the number line: sign and magnitude
read as a signed integer.  Both zeros are at position 0. -/
def key (x : Float64) : Int := if x.sign then -(x.mag : Int) else (x.mag : Int)

/-- Go `a < b` on float64. -/
def lt (a b : Float64) : Bool := !a.isNaN && !b.isNaN && decide (a.key < b.key)

/-- Go `a <= b` on float64. -/
def le (a b : Float64) : Bool := !a.isNaN && !b.isNaN && decide (a.key ≤ b.key)

/-- Go `a >= b` on float64. -/
def ge (a b : Float64) : Bool := !a.isNaN && !b.isNaN && decide (b.key ≤ a.key)

/-- Go `a == b` on float64. -/
def eq (a b : Float64) : Bool := !a.isNaN && !b.isNaN && decide (a.key = b.key)

end Float64

/-! ## Data model -/

/-- A `time.Time` instant, in nanoseconds on the wall clock. -/
abbrev Time := Int

/-- Bid is a bid on an item. -/
structure Bid where
  Email : String
  Amount : Float64
  Timestamp : Int
deriving DecidableEq, Repr

/-- Item is a product that is being auctioned. -/
structure Item where
  ID : Nat
  Name : String
  ReservePrice : Float64
  StartingAt : Time
  EndAt : Time
deriving DecidableEq, Repr

/-- Auction is an auction for an item (the mutex is not part of the state). -/
structure Auction where
  Item : Item
  CurrentWinner : Option Bid
  Bids : List Bid
deriving DecidableEq, Repr

/-- The three errors of the package. -/
inductive BiddingError where
  | ErrBidAmountBelowStartingBid
  | ErrBidAmountBelowCurrentBid
  | ErrAuctionOver
deriving DecidableEq, Repr

/-! ## Operations -/

/-- ReservePriceMet returns true if the reserve price has been met:
`bidAmount >= i.ReservePrice`. -/
def Item.ReservePriceMet (i : Item) (bidAmount : Float64) : Bool :=
  Float64.ge bidAmount i.ReservePrice

/-- AuctionOngoing returns true if the auction is ongoing:
`time.Now().UTC().Before(i.EndAt)`, with `now` the clock reading. -/
def Item.AuctionOngoing (i : Item) (now : Time) : Bool :=
  decide (now < i.EndAt)

/-- ChangeTime overwrites the end of the auction. -/
def Auction.ChangeTime (a : Auction) (endAt : Time) : Auction :=
  { a with Item := { a.Item with EndAt := endAt } }

/-- NewAuction creates a new auction for an item: no winner, no bids. -/
def NewAuction (item : Item) : Auction :=
  { Item := item, CurrentWinner := none, Bids := [] }

/-- The body of currentBidIsLessThan, `a.CurrentWinner.Amount < bidAmount`, on
the winner that the receiver's pointer refers to. -/
def currentBidIsLessThan (winner : Bid) (bidAmount : Float64) : Bool :=
  Float64.lt winner.Amount bidAmount

/-- The checks of validateBid, in the order of the source; `none` is Go's
`nil` error. -/
def Auction.validateBid (a : Auction) (now : Time) (bid : Bid) : Option BiddingError :=
  if !a.Item.AuctionOngoing now then
    some BiddingError.ErrAuctionOver
  else if !a.Item.ReservePriceMet bid.Amount then
    some BiddingError.ErrBidAmountBelowStartingBid
  else
    match a.CurrentWinner with
    | none => none
    | some winner =>
      if !currentBidIsLessThan winner bid.Amount then
        some BiddingError.ErrBidAmountBelowCurrentBid
      else
        none

/-- setWinner sets the current winner of the auction. -/
def Auction.setWinner (a : Auction) (bid : Bid) : Auction :=
  { a with CurrentWinner := some bid }

/-- addBidHistory adds a bid to the bid history: `append(a.Bids, *bid)`. -/
def Auction.addBidHistory (a : Auction) (bid : Bid) : Auction :=
  { a with Bids := a.Bids ++ [bid] }

/-- TryBid attempts to place a bid on an item.  The result is the returned
error (`none` for `nil`) and the state of the auction after the call. -/
def Auction.TryBid (a : Auction) (now : Time) (bid : Bid) : Option BiddingError × Auction :=
  match a.validateBid now bid with
  | some err => (some err, a)
  | none => (none, (a.setWinner bid).addBidHistory bid)

/-- GetWinner returns the current winner of the auction. -/
def Auction.GetWinner (a : Auction) : Option Bid := a.CurrentWinner

/-- GetBidHistory returns the bid history. -/
def Auction.GetBidHistory (a : Auction) : List Bid := a.Bids

/-! ## Sequences of calls -/

/-- A state-changing call on an auction. -/
inductive Op where
  | tryBid (now : Time) (bid : Bid)
  | changeTime (endAt : Time)
deriving DecidableEq, Repr

/-- The state after one call. -/
def Auction.step (a : Auction) : Op → Auction
  | Op.tryBid now bid => (a.TryBid now bid).2
  | Op.changeTime endAt => a.ChangeTime endAt

/-- The state after a sequence of calls, first call first. -/
def Auction.run (a : Auction) (ops : List Op) : Auction :=
  ops.foldl Auction.step a

/-- The states reachable from `NewAuction item` by TryBid and ChangeTime. -/
def Reachable (item : Item) (s : Auction) : Prop :=
  ∃ ops : List Op, (NewAuction item).run ops = s

/-- Whether some TryBid of the sequence returned no error. -/
def Auction.anyAccepted (a : Auction) : List Op → Bool
  | [] => false
  | Op.tryBid now bid :: ops =>
    (a.TryBid now bid).1.isNone || (a.TryBid now bid).2.anyAccepted ops
  | Op.changeTime endAt :: ops => (a.ChangeTime endAt).anyAccepted ops

/-! ## The numbers of the test scenarios -/

/-- The float64 2.0. -/
def f2 : Float64 := ⟨0x4000000000000000⟩
/-- The float64 5.0. -/
def f5 : Float64 := ⟨0x4014000000000000⟩
/-- The float64 7.0. -/
def f7 : Float64 := ⟨0x401C000000000000⟩
/-- The float64 10.0. -/
def f10 : Float64 := ⟨0x4024000000000000⟩
/-- The float64 100.0. -/
def f100 : Float64 := ⟨0x4059000000000000⟩
/-- The float64 NaN of Go's `math.NaN()`. -/
def fNaN : Float64 := ⟨0x7FF8000000000001⟩

/-! ## The scenarios of the tests -/

/-- The item of TestAuctionTryBid: reserve 5.0, open for five minutes. -/
def itemA : Item :=
  { ID := 0, Name := "Test Item", ReservePrice := f5, StartingAt := 0, EndAt := 300000000000 }

/-- The bid of 10.0 of user1. -/
def bid10 : Bid := { Email := "user1@example.com", Amount := f10, Timestamp := 0 }
/-- The bid of 2.0 of user3. -/
def bid2 : Bid := { Email := "user3@example.com", Amount := f2, Timestamp := 0 }
/-- The bid of 7.0 of user4. -/
def bid7 : Bid := { Email := "user4@example.com", Amount := f7, Timestamp := 0 }
/-- The bid of 100.0 of user4. -/
def bid100 : Bid := { Email := "user4@example.com", Amount := f100, Timestamp := 2 }
/-- A bid whose amount is NaN. -/
def bidNaN : Bid := { Email := "user5@example.com", Amount := fNaN, Timestamp := 0 }

/-- The auction of the test once the bid of 10.0 has been placed. -/
def auctionA : Auction := ((NewAuction itemA).TryBid 1000 bid10).2

/-- The auction of the test once its end has been moved to 1ms after the
instant 3000 of the call of ChangeTime. -/
def auctionB : Auction := auctionA.ChangeTime 1003000

/-! ## Calls made at given instants -/

/-- A call of the interface of the auction. -/
inductive Call where
  | tryBid (bid : Bid)
  | changeTime (endAt : Time)
  | getWinner
  | getBidHistory
deriving DecidableEq, Repr

/-- One call made at the instant now: the error it returns, if any, and the
state of the auction after it. -/
def Auction.call (a : Auction) (now : Time) : Call → Option BiddingError × Auction
  | Call.tryBid bid => a.TryBid now bid
  | Call.changeTime endAt => (none, a.ChangeTime endAt)
  | Call.getWinner => (none, a)
  | Call.getBidHistory => (none, a)

/-- The record of one call: its instant, the call, the error returned and the
state after it. -/
structure Event where
  now : Time
  call : Call
  err : Option BiddingError
  state : Auction
deriving DecidableEq, Repr

/-- The records of a sequence of calls, first call first. -/
def Auction.trace (a : Auction) : List (Time × Call) → List Event
  | [] => []
  | (now, c) :: rest =>
    { now := now, call := c, err := (a.call now c).1, state := (a.call now c).2 } ::
      (a.call now c).2.trace rest

/-- Whether a call made at the instant now leaves the end of the auction at or
before now: every call but a ChangeTime to a later instant. -/
def Call.endNotAfter (now : Time) : Call → Bool
  | Call.changeTime endAt => decide (endAt ≤ now)
  | _ => true

/-- Whether the instants of the calls are non-decreasing, starting from t0. -/
def nonDecreasingFrom (t0 : Time) : List (Time × Call) → Bool
  | [] => true
  | (t, _) :: rest => decide (t0 ≤ t) && nonDecreasingFrom t rest

/-- Calls after the end of auctionB, one of which moves the end forward. -/
def callsReopening : List (Time × Call) :=
  [(2000000000, Call.tryBid bid100), (2000000001, Call.changeTime 9000000000),
    (2000000002, Call.tryBid bid100)]

/-- Calls after the end of auctionB, none of which moves the end past its own
instant. -/
def callsClosed : List (Time × Call) :=
  [(2000000000, Call.tryBid bid100), (2000000001, Call.getWinner),
    (2000000002, Call.changeTime 2000000001), (2000000003, Call.tryBid bid100),
    (2000000004, Call.getBidHistory)]

/-! ## The order of the checks, in words -/

/-- The order of the checks as the claim words it: over, then the amount
below the reserve, then no winner yet, then the amount less than or equal to
the winner's amount. -/
def orderAsStated (a : Auction) (now : Time) (bid : Bid) : Option BiddingError :=
  if ¬ now < a.Item.EndAt then some BiddingError.ErrAuctionOver
  else if Float64.lt bid.Amount a.Item.ReservePrice = true then
    some BiddingError.ErrBidAmountBelowStartingBid
  else if a.CurrentWinner = none then none
  else if (a.CurrentWinner.any fun w => Float64.le bid.Amount w.Amount) = true then
    some BiddingError.ErrBidAmountBelowCurrentBid
  else none

/-- The order of the checks with the two amount checks worded as the failure
of `>=` against the reserve and of `<` against the winner. -/
def orderOfChecks (a : Auction) (now : Time) (bid : Bid) : Option BiddingError :=
  if ¬ now < a.Item.EndAt then some BiddingError.ErrAuctionOver
  else if Float64.ge bid.Amount a.Item.ReservePrice = false then
    some BiddingError.ErrBidAmountBelowStartingBid
  else if a.CurrentWinner = none then none
  else if (a.CurrentWinner.all fun w => Float64.lt w.Amount bid.Amount) = false then
    some BiddingError.ErrBidAmountBelowCurrentBid
  else none

/-- No NaN among the amounts that a call of TryBid compares. -/
def numericAmounts (a : Auction) (bid : Bid) : Bool :=
  !bid.Amount.isNaN && !a.Item.ReservePrice.isNaN &&
    a.CurrentWinner.all fun w => !w.Amount.isNaN

/-! ## Bids submitted one after another -/

/-- The bid of a call, when the call is a TryBid. -/
def Op.bidOf : Op → Option Bid
  | Op.tryBid _ bid => some bid
  | Op.changeTime _ => none

/-- The bids that a sequence of calls submits, in the order of submission. -/
def submittedBids (ops : List Op) : List Bid := ops.filterMap Op.bidOf

/-- The state after submitting bids one after another by TryBid, each at its
own instant. -/
def Auction.submit (a : Auction) (subs : List (Time × Bid)) : Auction :=
  a.run (subs.map fun x => Op.tryBid x.1 x.2)

/-- A bid of 100.0 created at second 3. -/
def bidEarly100 : Bid := { Email := "user2@example.com", Amount := f100, Timestamp := 3 }
/-- A bid of 10.0 created at second 5. -/
def bidLate10 : Bid := { Email := "user1@example.com", Amount := f10, Timestamp := 5 }

/-- An item whose auction starts at the instant 1000 and ends at 2000. -/
def itemLater : Item :=
  { ID := 1, Name := "Later Item", ReservePrice := f5, StartingAt := 1000, EndAt := 2000 }

/-! ## The accesses of the methods to the mutex and to the shared fields -/

/-- An access of a method to the mutex `mu` or to a field of the auction. -/
inductive Access where
  | lock
  | unlock
  | rlock
  | runlock
  | readEndAt
  | writeEndAt
  | readReservePrice
  | readCurrentWinner
  | writeCurrentWinner
  | readBids
  | writeBids
deriving DecidableEq, Repr

/-- The accesses of ChangeTime, in program order: the one assignment
`a.Item.EndAt = endAt`. -/
def ChangeTimeAccesses : List Access := [Access.writeEndAt]

/-- The accesses of validateBid, in program order, along the branch that the
call takes. -/
def Auction.validateBidAccesses (a : Auction) (now : Time) (bid : Bid) : List Access :=
  if !a.Item.AuctionOngoing now then
    [Access.readEndAt]
  else if !a.Item.ReservePriceMet bid.Amount then
    [Access.readEndAt, Access.readReservePrice]
  else
    match a.CurrentWinner with
    | none => [Access.readEndAt, Access.readReservePrice, Access.readCurrentWinner]
    | some _ =>
      [Access.readEndAt, Access.readReservePrice, Access.readCurrentWinner,
        Access.readCurrentWinner]

/-- The accesses of TryBid, in program order: `a.mu.Lock()`, validateBid, then
setWinner and addBidHistory when the bid is valid, and the deferred
`a.mu.Unlock()`. -/
def Auction.TryBidAccesses (a : Auction) (now : Time) (bid : Bid) : List Access :=
  [Access.lock] ++ a.validateBidAccesses now bid ++
    (if (a.validateBid now bid).isNone then
      [Access.writeCurrentWinner, Access.readBids, Access.writeBids]
    else []) ++ [Access.unlock]

/-- The accesses of GetWinner, in program order. -/
def GetWinnerAccesses : List Access :=
  [Access.rlock, Access.readCurrentWinner, Access.runlock]

/-- The accesses of GetBidHistory, in program order. -/
def GetBidHistoryAccesses : List Access :=
  [Access.rlock, Access.readBids, Access.runlock]

/-- Whether an access writes a shared field. -/
def Access.isWrite : Access → Bool
  | Access.writeEndAt => true
  | Access.writeCurrentWinner => true
  | Access.writeBids => true
  | _ => false

/-- Whether every write of a method is made between its `Lock` and its
`Unlock`; `held` tells whether the method holds the lock so far. -/
def writesUnderLock (held : Bool) : List Access → Bool
  | [] => true
  | Access.lock :: rest => writesUnderLock true rest
  | Access.unlock :: rest => writesUnderLock false rest
  | x :: rest => (!x.isWrite || held) && writesUnderLock held rest

/-- The mutex: the goroutine that holds it for writing, if any, and the
goroutines that hold it for reading. -/
structure MutexState where
  writer : Option Nat
  readers : List Nat
deriving DecidableEq, Repr

/-- The effect of an access of a goroutine on the mutex; `none` when the mutex
does not let the access happen now.  Accesses to fields never wait. -/
def MutexState.access (m : MutexState) (g : Nat) : Access → Option MutexState
  | Access.lock =>
    if m.writer.isNone && m.readers.isEmpty then some { m with writer := some g } else none
  | Access.unlock => if m.writer = some g then some { m with writer := none } else none
  | Access.rlock => if m.writer.isNone then some { m with readers := g :: m.readers } else none
  | Access.runlock =>
    if m.readers.contains g then some { m with readers := m.readers.erase g } else none
  | _ => some m

/-- Whether the mutex lets a schedule of accesses, each tagged with its
goroutine, happen in that order. -/
def MutexState.allows (m : MutexState) : List (Nat × Access) → Bool
  | [] => true
  | (g, x) :: rest =>
    match m.access g x with
    | none => false
    | some next => next.allows rest

/-- Whether a schedule contains a write of EndAt by a goroutine made while
another goroutine holds the mutex for writing and has read EndAt under it. -/
def MutexState.racyEndAtWrite (m : MutexState) (readUnderLock : Bool) :
    List (Nat × Access) → Bool
  | [] => false
  | (g, x) :: rest =>
    match m.access g x with
    | none => false
    | some next =>
      (x == Access.writeEndAt && readUnderLock && m.writer.isSome && m.writer != some g) ||
        next.racyEndAtWrite
          (next.writer.isSome && (readUnderLock || (x == Access.readEndAt && m.writer == some g)))
          rest

/-- The accesses of one goroutine in a schedule, in order. -/
def accessesOf (g : Nat) (schedule : List (Nat × Access)) : List Access :=
  (schedule.filter fun x => x.1 == g).map Prod.snd

/-- A schedule of goroutine 0 calling `auctionA.TryBid` with the bid of 100.0
at the instant 2000 and goroutine 1 calling `auctionA.ChangeTime`. -/
def scheduleRace : List (Nat × Access) :=
  [(0, Access.lock), (0, Access.readEndAt), (1, Access.writeEndAt),
    (0, Access.readReservePrice), (0, Access.readCurrentWinner), (0, Access.readCurrentWinner),
    (0, Access.writeCurrentWinner), (0, Access.readBids), (0, Access.writeBids),
    (0, Access.unlock)]

/-! ## Goroutines running the methods access by access -/

/-- Where a goroutine that runs TryBid stands: the point of `TryBid` and
`validateBid` that it has reached. -/
inductive TryBidAt where
  /-- Before `a.mu.Lock()`. -/
  | start
  /-- Holds the lock; next, AuctionOngoing reads EndAt. -/
  | locked
  /-- The auction is ongoing; next, ReservePriceMet reads ReservePrice. -/
  | ongoing
  /-- The reserve is met; next, CurrentWinner is read and compared with nil. -/
  | reserveMet
  /-- CurrentWinner was not nil; next, currentBidIsLessThan reads it again. -/
  | winnerNotNil
  /-- The call of validateBid returned nil; next, setWinner writes CurrentWinner. -/
  | valid
  /-- CurrentWinner is written; next, addBidHistory reads Bids. -/
  | winnerSet
  /-- Bids was read as `old`; next, addBidHistory writes `append(old, bid)`. -/
  | bidsRead (old : List Bid)
  /-- The error to return is known; next, the deferred `a.mu.Unlock()`. -/
  | leaving (err : Option BiddingError)
  /-- The call has returned. -/
  | returned (err : Option BiddingError)
deriving DecidableEq, Repr

/-- Where a goroutine that runs GetWinner or GetBidHistory stands. -/
inductive ReaderAt (α : Type) where
  /-- Before `a.mu.RLock()`. -/
  | start
  /-- Holds the lock for reading; next, the field is read. -/
  | rlocked
  /-- The field was read; next, the deferred `a.mu.RUnlock()`. -/
  | read (value : α)
  /-- The call has returned the value. -/
  | returned (value : α)
deriving DecidableEq, Repr

/-- A goroutine that makes one call of a method of the auction. -/
inductive Goroutine where
  | tryBid (now : Time) (bid : Bid) (pc : TryBidAt)
  | changeTime (endAt : Time) (finished : Bool)
  | getWinner (pc : ReaderAt (Option Bid))
  | getBidHistory (pc : ReaderAt (List Bid))
deriving DecidableEq, Repr

/-- The goroutine that is about to make a call; the instant is the clock reading
of AuctionOngoing when the call is a TryBid. -/
def Goroutine.start : Time × Call → Goroutine
  | (now, Call.tryBid bid) => Goroutine.tryBid now bid TryBidAt.start
  | (_, Call.changeTime endAt) => Goroutine.changeTime endAt false
  | (_, Call.getWinner) => Goroutine.getWinner ReaderAt.start
  | (_, Call.getBidHistory) => Goroutine.getBidHistory ReaderAt.start

/-- Whether the method of a call takes the mutex: every method but ChangeTime. -/
def Call.takesMutex : Call → Bool
  | Call.changeTime _ => false
  | _ => true

/-- Whether a goroutine running TryBid is between its `Lock` and its `Unlock`. -/
def TryBidAt.inside : TryBidAt → Bool
  | TryBidAt.start => false
  | TryBidAt.returned _ => false
  | _ => true

/-- Whether a goroutine holds the mutex for writing. -/
def Goroutine.holdsLock : Goroutine → Bool
  | Goroutine.tryBid _ _ pc => pc.inside
  | _ => false

/-- Whether a goroutine holds the mutex for reading. -/
def Goroutine.holdsRLock : Goroutine → Bool
  | Goroutine.getWinner ReaderAt.rlocked => true
  | Goroutine.getWinner (ReaderAt.read _) => true
  | Goroutine.getBidHistory ReaderAt.rlocked => true
  | Goroutine.getBidHistory (ReaderAt.read _) => true
  | _ => false

/-- The auction shared by the goroutines, its mutex and the goroutines by
number.  Two records are kept that no step reads: `log`, the TryBid calls in
the order in which they acquired the lock, and `trace`, the accesses made so
far, each with its goroutine. -/
structure System where
  auction : Auction
  mu : MutexState
  goroutines : Nat → Option Goroutine
  log : List (Nat × Time × Bid)
  trace : List (Nat × Access)

/-- The system at the start of the calls: the mutex is free and goroutine `g`
is about to make the `g`-th call. -/
def System.init (a : Auction) (calls : List (Time × Call)) : System :=
  { auction := a, mu := { writer := none, readers := [] },
    goroutines := fun g => (calls.get? g).map Goroutine.start, log := [], trace := [] }

/-- The system once goroutine `g` has made the access `x` and stands at `t`. -/
def System.advance (s : System) (g : Nat) (x : Access) (t : Goroutine) : System :=
  { s with goroutines := Function.update s.goroutines g (some t), trace := s.trace ++ [(g, x)] }

/-- One access by goroutine `g`: the next access of its method, on the auction
as it is now.  `none` when there is no such goroutine, when it has returned,
when the mutex makes it wait, and when it dereferences a nil CurrentWinner. -/
def System.step (s : System) (g : Nat) : Option System :=
  match s.goroutines g with
  | none => none
  | some (Goroutine.tryBid now bid pc) =>
    match pc with
    | TryBidAt.start =>
      match s.mu.access g Access.lock with
      | none => none
      | some m =>
        some (System.advance { s with mu := m, log := s.log ++ [(g, now, bid)] } g Access.lock
          (Goroutine.tryBid now bid TryBidAt.locked))
    | TryBidAt.locked =>
      some (s.advance g Access.readEndAt (Goroutine.tryBid now bid
        (if s.auction.Item.AuctionOngoing now then TryBidAt.ongoing
          else TryBidAt.leaving (some BiddingError.ErrAuctionOver))))
    | TryBidAt.ongoing =>
      some (s.advance g Access.readReservePrice (Goroutine.tryBid now bid
        (if s.auction.Item.ReservePriceMet bid.Amount then TryBidAt.reserveMet
          else TryBidAt.leaving (some BiddingError.ErrBidAmountBelowStartingBid))))
    | TryBidAt.reserveMet =>
      some (s.advance g Access.readCurrentWinner (Goroutine.tryBid now bid
        (match s.auction.CurrentWinner with
          | none => TryBidAt.valid
          | some _ => TryBidAt.winnerNotNil)))
    | TryBidAt.winnerNotNil =>
      match s.auction.CurrentWinner with
      | none => none
      | some winner =>
        some (s.advance g Access.readCurrentWinner (Goroutine.tryBid now bid
          (if currentBidIsLessThan winner bid.Amount then TryBidAt.valid
            else TryBidAt.leaving (some BiddingError.ErrBidAmountBelowCurrentBid))))
    | TryBidAt.valid =>
      some (System.advance { s with auction := s.auction.setWinner bid } g
        Access.writeCurrentWinner (Goroutine.tryBid now bid TryBidAt.winnerSet))
    | TryBidAt.winnerSet =>
      some (s.advance g Access.readBids
        (Goroutine.tryBid now bid (TryBidAt.bidsRead s.auction.Bids)))
    | TryBidAt.bidsRead old =>
      some (System.advance { s with auction := { s.auction with Bids := old ++ [bid] } } g
        Access.writeBids (Goroutine.tryBid now bid (TryBidAt.leaving none)))
    | TryBidAt.leaving err =>
      match s.mu.access g Access.unlock with
      | none => none
      | some m =>
        some (System.advance { s with mu := m } g Access.unlock
          (Goroutine.tryBid now bid (TryBidAt.returned err)))
    | TryBidAt.returned _ => none
  | some (Goroutine.changeTime endAt finished) =>
    if finished then none
    else
      some (System.advance { s with auction := s.auction.ChangeTime endAt } g Access.writeEndAt
        (Goroutine.changeTime endAt true))
  | some (Goroutine.getWinner pc) =>
    match pc with
    | ReaderAt.start =>
      match s.mu.access g Access.rlock with
      | none => none
      | some m =>
        some (System.advance { s with mu := m } g Access.rlock
          (Goroutine.getWinner ReaderAt.rlocked))
    | ReaderAt.rlocked =>
      some (s.advance g Access.readCurrentWinner
        (Goroutine.getWinner (ReaderAt.read s.auction.CurrentWinner)))
    | ReaderAt.read value =>
      match s.mu.access g Access.runlock with
      | none => none
      | some m =>
        some (System.advance { s with mu := m } g Access.runlock
          (Goroutine.getWinner (ReaderAt.returned value)))
    | ReaderAt.returned _ => none
  | some (Goroutine.getBidHistory pc) =>
    match pc with
    | ReaderAt.start =>
      match s.mu.access g Access.rlock with
      | none => none
      | some m =>
        some (System.advance { s with mu := m } g Access.rlock
          (Goroutine.getBidHistory ReaderAt.rlocked))
    | ReaderAt.rlocked =>
      some (s.advance g Access.readBids
        (Goroutine.getBidHistory (ReaderAt.read s.auction.Bids)))
    | ReaderAt.read value =>
      match s.mu.access g Access.runlock with
      | none => none
      | some m =>
        some (System.advance { s with mu := m } g Access.runlock
          (Goroutine.getBidHistory (ReaderAt.returned value)))
    | ReaderAt.returned _ => none

/-- The system after the goroutines have made their accesses in the order of
the schedule, which names the goroutine of each access; `none` when a goroutine
of the schedule cannot make its access at its turn. -/
def System.exec (s : System) : List Nat → Option System
  | [] => some s
  | g :: rest =>
    match s.step g with
    | none => none
    | some next => next.exec rest

/-- The auction after the calls of a log have been made one at a time, each as
a whole, in the order of the log. -/
def serialized (a : Auction) (log : List (Nat × Time × Bid)) : Auction :=
  a.submit (log.map Prod.snd)

/-- Five concurrent calls on auctionA: bids of 100.0 and 7.0 and three reads. -/
def callsConcurrent : List (Time × Call) :=
  [(2000, Call.tryBid bid100), (0, Call.getWinner), (0, Call.getBidHistory),
    (2500, Call.tryBid bid7), (0, Call.getWinner)]

/-- An interleaving of the five calls: the first two readers overlap each
other, then the bid of 100.0 is made, then the third reader reads, and the bid
of 7.0 comes last. -/
def scheduleConcurrent : List Nat :=
  [1, 2, 1, 1, 2, 2, 0, 0, 0, 0, 0, 0, 0, 0, 0, 4, 4, 4, 3, 3, 3, 3, 3, 3]

/-- What the auction is while a TryBid that found the auction `before` when it
took the lock stands at a point of its critical section. -/
def TryBidAt.progress (before cur : Auction) (now : Time) (bid : Bid) : TryBidAt → Prop
  | TryBidAt.start => True
  | TryBidAt.locked => cur = before
  | TryBidAt.ongoing => cur = before ∧ before.Item.AuctionOngoing now = true
  | TryBidAt.reserveMet =>
    cur = before ∧ before.Item.AuctionOngoing now = true ∧
      before.Item.ReservePriceMet bid.Amount = true
  | TryBidAt.winnerNotNil =>
    cur = before ∧ before.Item.AuctionOngoing now = true ∧
      before.Item.ReservePriceMet bid.Amount = true ∧ before.CurrentWinner ≠ none
  | TryBidAt.valid => cur = before ∧ before.validateBid now bid = none
  | TryBidAt.winnerSet => cur = before.setWinner bid ∧ before.validateBid now bid = none
  | TryBidAt.bidsRead old =>
    cur = before.setWinner bid ∧ before.validateBid now bid = none ∧ old = before.Bids
  | TryBidAt.leaving err => before.TryBid now bid = (err, cur)
  | TryBidAt.returned _ => True

/-- What holds of every system that goroutines calling TryBid, GetWinner and
GetBidHistory can reach from the start of their calls on the auction `a`. -/
structure Serialized (a : Auction) (s : System) : Prop where
  noChangeTime : ∀ h endAt finished,
    s.goroutines h ≠ some (Goroutine.changeTime endAt finished)
  writer_iff : ∀ h, s.mu.writer = some h ↔ ∃ t, s.goroutines h = some t ∧ t.holdsLock = true
  readers_iff : ∀ h, h ∈ s.mu.readers ↔ ∃ t, s.goroutines h = some t ∧ t.holdsRLock = true
  readers_nodup : s.mu.readers.Nodup
  exclusive : s.mu.writer ≠ none → s.mu.readers = []
  log_iff : ∀ h now bid, (h, now, bid) ∈ s.log ↔
    ∃ pc, s.goroutines h = some (Goroutine.tryBid now bid pc) ∧ pc ≠ TryBidAt.start
  log_nodup : (s.log.map Prod.fst).Nodup
  whole : s.mu.writer = none → s.auction = serialized a s.log
  inProgress : ∀ h now bid pc, s.goroutines h = some (Goroutine.tryBid now bid pc) →
    pc.inside = true →
    ∃ before, s.log = before ++ [(h, now, bid)] ∧
      pc.progress (serialized a before) s.auction now bid
  returned : ∀ h now bid err,
    s.goroutines h = some (Goroutine.tryBid now bid (TryBidAt.returned err)) →
    ∃ before rest, s.log = before ++ (h, now, bid) :: rest ∧
      (serialized a before).TryBid now bid = (err, serialized a (before ++ [(h, now, bid)]))
  winnerRead : ∀ h v,
    (s.goroutines h = some (Goroutine.getWinner (ReaderAt.read v)) ∨
      s.goroutines h = some (Goroutine.getWinner (ReaderAt.returned v))) →
    ∃ k, k ≤ s.log.length ∧ v = (serialized a (s.log.take k)).GetWinner
  historyRead : ∀ h v,
    (s.goroutines h = some (Goroutine.getBidHistory (ReaderAt.read v)) ∨
      s.goroutines h = some (Goroutine.getBidHistory (ReaderAt.returned v))) →
    ∃ k, k ≤ s.log.length ∧ v = (serialized a (s.log.take k)).GetBidHistory

/-- The goroutine at the start of the call that it makes. -/
def Goroutine.restart : Goroutine → Goroutine
  | Goroutine.tryBid now bid _ => Goroutine.tryBid now bid TryBidAt.start
  | Goroutine.changeTime endAt _ => Goroutine.changeTime endAt false
  | Goroutine.getWinner _ => Goroutine.getWinner ReaderAt.start
  | Goroutine.getBidHistory _ => Goroutine.getBidHistory ReaderAt.start

/-- The mutex after a schedule of accesses has happened; `none` when the mutex
does not let some access of the schedule happen at its turn. -/
def MutexState.after (m : MutexState) : List (Nat × Access) → Option MutexState
  | [] => some m
  | (g, x) :: rest =>
    match m.access g x with
    | none => none
    | some next => next.after rest

/-- The accesses that a goroutine running TryBid has made when it stands at a
point, `before` being the auction that it found when it took the lock. -/
def TryBidAt.done (before : Auction) (now : Time) (bid : Bid) : TryBidAt → List Access
  | TryBidAt.start => []
  | TryBidAt.locked => [Access.lock]
  | TryBidAt.ongoing => [Access.lock, Access.readEndAt]
  | TryBidAt.reserveMet => [Access.lock, Access.readEndAt, Access.readReservePrice]
  | TryBidAt.winnerNotNil =>
    [Access.lock, Access.readEndAt, Access.readReservePrice, Access.readCurrentWinner]
  | TryBidAt.valid => Access.lock :: before.validateBidAccesses now bid
  | TryBidAt.winnerSet =>
    Access.lock :: before.validateBidAccesses now bid ++ [Access.writeCurrentWinner]
  | TryBidAt.bidsRead _ =>
    Access.lock :: before.validateBidAccesses now bid ++
      [Access.writeCurrentWinner, Access.readBids]
  | TryBidAt.leaving _ => (before.TryBidAccesses now bid).dropLast
  | TryBidAt.returned _ => before.TryBidAccesses now bid

/-- The accesses that a goroutine running GetWinner or GetBidHistory has made
when it stands at a point, `x` being the read of its field. -/
def ReaderAt.done {α : Type} (x : Access) : ReaderAt α → List Access
  | ReaderAt.start => []
  | ReaderAt.rlocked => [Access.rlock]
  | ReaderAt.read _ => [Access.rlock, x]
  | ReaderAt.returned _ => [Access.rlock, x, Access.runlock]

/-- The accesses that a goroutine has made when it stands where it stands. -/
def Goroutine.done (before : Auction) : Goroutine → List Access
  | Goroutine.tryBid now bid pc => pc.done before now bid
  | Goroutine.changeTime _ finished => if finished then ChangeTimeAccesses else []
  | Goroutine.getWinner pc => pc.done Access.readCurrentWinner
  | Goroutine.getBidHistory pc => pc.done Access.readBids

/-- What holds of the record of accesses of every system that the goroutines
can reach: the mutex lets the accesses happen in their order, and each
goroutine has made the accesses of its method up to the point where it stands,
for a TryBid on the auction that the calls before it in the log leave. -/
structure Traced (a : Auction) (s : System) : Prop where
  mutex : MutexState.after { writer := none, readers := [] } s.trace = some s.mu
  accesses : ∀ h t before, s.goroutines h = some t →
    (∀ now bid pc, t = Goroutine.tryBid now bid pc → pc ≠ TryBidAt.start →
      ∃ rest, s.log = before ++ (h, now, bid) :: rest) →
    accessesOf h s.trace = t.done (serialized a before)

/-! ## The invariant of the reachable states -/

/-- What holds in every state reachable from `NewAuction item`. -/
structure AuctionInv (item : Item) (s : Auction) : Prop where
  frame : s.Item.ID = item.ID ∧ s.Item.Name = item.Name ∧
    s.Item.ReservePrice = item.ReservePrice ∧ s.Item.StartingAt = item.StartingAt
  winner_last : s.CurrentWinner = s.Bids.getLast?
  reserve : ∀ b ∈ s.Bids, Float64.ge b.Amount item.ReservePrice = true
  increasing : s.Bids.Chain' (fun x y => Float64.lt x.Amount y.Amount = true)
  winner_max : ∀ w, s.CurrentWinner = some w →
    ∀ b ∈ s.Bids, Float64.le b.Amount w.Amount = true

/-! ## Facts about float64 comparison -/

theorem Float64.ge_iff (a b : Float64) :
    Float64.ge a b = true ↔ a.isNaN = false ∧ b.isNaN = false ∧ b.key ≤ a.key := by
  simp [Float64.ge, and_assoc]

theorem Float64.lt_iff (a b : Float64) :
    Float64.lt a b = true ↔ a.isNaN = false ∧ b.isNaN = false ∧ a.key < b.key := by
  simp [Float64.lt, and_assoc]

theorem Float64.le_iff (a b : Float64) :
    Float64.le a b = true ↔ a.isNaN = false ∧ b.isNaN = false ∧ a.key ≤ b.key := by
  simp [Float64.le, and_assoc]

theorem Float64.eq_iff (a b : Float64) :
    Float64.eq a b = true ↔ a.isNaN = false ∧ b.isNaN = false ∧ a.key = b.key := by
  simp [Float64.eq, and_assoc]

/-! ## One call of TryBid -/

/-- What validateBid has checked when it returns no error. -/
theorem Auction.validateBid_none (a : Auction) (now : Time) (bid : Bid)
    (h : a.validateBid now bid = none) :
    now < a.Item.EndAt ∧ Float64.ge bid.Amount a.Item.ReservePrice = true ∧
      ∀ w, a.CurrentWinner = some w → Float64.lt w.Amount bid.Amount = true := by
  unfold Auction.validateBid at h
  by_cases h1 : a.Item.AuctionOngoing now = true
  · by_cases h2 : a.Item.ReservePriceMet bid.Amount = true
    · refine ⟨by simpa [Item.AuctionOngoing] using h1, h2, ?_⟩
      intro w hw
      by_cases h3 : currentBidIsLessThan w bid.Amount = true
      · exact h3
      · simp [h1, h2, hw, h3] at h
    · simp [h1, h2] at h
  · simp [h1] at h

/-- A rejected bid leaves the auction as it was. -/
theorem Auction.TryBid_some (a : Auction) (now : Time) (bid : Bid) (e : BiddingError)
    (h : a.validateBid now bid = some e) : a.TryBid now bid = (some e, a) := by
  simp [Auction.TryBid, h]

/-- An accepted bid becomes the winner and is appended to the history. -/
theorem Auction.TryBid_none (a : Auction) (now : Time) (bid : Bid)
    (h : a.validateBid now bid = none) :
    a.TryBid now bid =
      (none, { Item := a.Item, CurrentWinner := some bid, Bids := a.Bids ++ [bid] }) := by
  simp [Auction.TryBid, h, Auction.setWinner, Auction.addBidHistory]

/-- The error returned by TryBid is the result of validateBid. -/
theorem Auction.TryBid_fst (a : Auction) (now : Time) (bid : Bid) :
    (a.TryBid now bid).1 = a.validateBid now bid := by
  cases h : a.validateBid now bid with
  | none => rw [Auction.TryBid_none a now bid h]
  | some e => rw [Auction.TryBid_some a now bid e h]

/-- When the clock has reached EndAt, validateBid returns ErrAuctionOver. -/
theorem Auction.validateBid_over (a : Auction) (now : Time) (bid : Bid)
    (h : ¬ now < a.Item.EndAt) :
    a.validateBid now bid = some BiddingError.ErrAuctionOver := by
  simp [Auction.validateBid, Item.AuctionOngoing, h]

/-! ## The invariant is kept by every call -/

theorem AuctionInv.new (item : Item) : AuctionInv item (NewAuction item) := by
  constructor <;> simp [NewAuction]

theorem AuctionInv.changeTime {item : Item} {s : Auction} (h : AuctionInv item s) (endAt : Time) :
    AuctionInv item (s.ChangeTime endAt) := by
  obtain ⟨hf, hw, hr, hi, hm⟩ := h
  exact ⟨hf, hw, hr, hi, hm⟩

theorem AuctionInv.reservePrice {item : Item} {s : Auction} (h : AuctionInv item s) :
    s.Item.ReservePrice = item.ReservePrice :=
  h.frame.2.2.1

theorem AuctionInv.tryBid {item : Item} {s : Auction} (h : AuctionInv item s) (now : Time) (bid : Bid) :
    AuctionInv item (s.TryBid now bid).2 := by
  cases hv : s.validateBid now bid with
  | some e => rw [Auction.TryBid_some s now bid e hv]; exact h
  | none =>
    rw [Auction.TryBid_none s now bid hv]
    obtain ⟨_, hge, hlt⟩ := Auction.validateBid_none s now bid hv
    refine ⟨h.frame, ?_, ?_, ?_, ?_⟩
    · simp [List.getLast?_concat]
    · intro b hb
      rcases List.mem_append.mp hb with hb | hb
      · exact h.reserve b hb
      · rw [List.mem_singleton.mp hb, ← h.reservePrice]
        exact hge
    · refine List.Chain'.append h.increasing (List.chain'_singleton bid) ?_
      intro x hx y hy
      have hyb : y = bid := by simpa using hy.symm
      subst hyb
      exact hlt x (by rw [h.winner_last]; exact hx)
    · intro w hw b hb
      have hwb : w = bid := by simpa using hw.symm
      subst hwb
      have hnan : w.Amount.isNaN = false := ((Float64.ge_iff _ _).mp hge).1
      rcases List.mem_append.mp hb with hb | hb
      · cases hc : s.CurrentWinner with
        | none =>
          have hnil : s.Bids = [] := by
            rw [← List.getLast?_eq_none_iff, ← h.winner_last]; exact hc
          rw [hnil] at hb
          cases hb
        | some v =>
          have h1 := (Float64.le_iff _ _).mp (h.winner_max v hc b hb)
          have h2 := (Float64.lt_iff _ _).mp (hlt v hc)
          exact (Float64.le_iff _ _).mpr ⟨h1.1, hnan, by omega⟩
      · rw [List.mem_singleton.mp hb]
        exact (Float64.le_iff _ _).mpr ⟨hnan, hnan, le_refl _⟩

theorem AuctionInv.step {item : Item} {s : Auction} (h : AuctionInv item s) (op : Op) :
    AuctionInv item (s.step op) := by
  cases op with
  | tryBid now bid => exact h.tryBid now bid
  | changeTime endAt => exact h.changeTime endAt

theorem AuctionInv.run {item : Item} (ops : List Op) :
    ∀ {s : Auction}, AuctionInv item s → AuctionInv item (s.run ops) := by
  induction ops with
  | nil => intro s h; exact h
  | cons op ops ih => intro s h; exact ih (h.step op)

/-- Every state reached from a fresh auction satisfies the invariant. -/
theorem inv_run (item : Item) (ops : List Op) : AuctionInv item ((NewAuction item).run ops) :=
  AuctionInv.run ops (AuctionInv.new item)

/-! ## C1: a bid is applied whole or not at all -/

/-- C1: for every auction, bid and instant, TryBid does exactly one of two
things: it returns no error, the bid is the current winner and the history is
the old history with the bid appended; or it returns an error and the winner,
the history and the item are what they were. -/
theorem c1_tryBid_applied_or_unchanged (a : Auction) (now : Time) (bid : Bid) :
    Xor'
      ((a.TryBid now bid).1 = none ∧ (a.TryBid now bid).2.CurrentWinner = some bid ∧
        (a.TryBid now bid).2.Bids = a.Bids ++ [bid])
      ((∃ e, (a.TryBid now bid).1 = some e) ∧
        (a.TryBid now bid).2.CurrentWinner = a.CurrentWinner ∧
        (a.TryBid now bid).2.Bids = a.Bids ∧ (a.TryBid now bid).2.Item = a.Item) := by
  cases hv : a.validateBid now bid with
  | none =>
    rw [Auction.TryBid_none a now bid hv]
    exact Or.inl ⟨⟨rfl, rfl, rfl⟩, fun h => by obtain ⟨⟨e, he⟩, _⟩ := h; cases he⟩
  | some e =>
    rw [Auction.TryBid_some a now bid e hv]
    exact Or.inr ⟨⟨⟨e, rfl⟩, rfl, rfl, rfl⟩, fun h => by cases h.1⟩

/-! ## C2: the order of the checks -/

/-- C2, as stated, fails on a NaN amount: on the fresh auction of the test a
bid of NaN is not below the reserve under `<` and there is no winner, so the
stated order gives success, while TryBid returns ErrBidAmountBelowStartingBid
because `NaN >= 5.0` is false. -/
theorem c2_stated_order_fails_on_nan :
    orderAsStated (NewAuction itemA) 0 bidNaN = none ∧
      ((NewAuction itemA).TryBid 0 bidNaN).1 =
        some BiddingError.ErrBidAmountBelowStartingBid := by
  decide

/-- C2, amended: the error of TryBid is decided by the first failing check in
the order: ErrAuctionOver if now is not before EndAt; otherwise
ErrBidAmountBelowStartingBid if `amount >= ReservePrice` is false; otherwise
success if there is no winner; otherwise ErrBidAmountBelowCurrentBid if
`winner amount < amount` is false; otherwise success.  When no amount involved
is NaN this is the order as stated, with "below the reserve" and "less than or
equal to the winner's amount". -/
theorem c2_order_of_checks (a : Auction) (now : Time) (bid : Bid) :
    (a.TryBid now bid).1 = orderOfChecks a now bid ∧
      (numericAmounts a bid = true → (a.TryBid now bid).1 = orderAsStated a now bid) := by
  rw [Auction.TryBid_fst]
  constructor
  · unfold Auction.validateBid orderOfChecks Item.AuctionOngoing Item.ReservePriceMet
      currentBidIsLessThan
    by_cases h1 : now < a.Item.EndAt
    · cases h2 : Float64.ge bid.Amount a.Item.ReservePrice
      · simp [h1]
      · cases hw : a.CurrentWinner with
        | none => simp [h1]
        | some w => cases h3 : Float64.lt w.Amount bid.Amount <;> simp [h1, h3]
    · simp [h1]
  · intro hn
    unfold Auction.validateBid orderAsStated Item.AuctionOngoing Item.ReservePriceMet
      currentBidIsLessThan
    simp only [numericAmounts, Bool.and_eq_true, Bool.not_eq_true'] at hn
    obtain ⟨⟨hb, hr⟩, hw⟩ := hn
    by_cases h1 : now < a.Item.EndAt
    · have hge : Float64.ge bid.Amount a.Item.ReservePrice =
          !Float64.lt bid.Amount a.Item.ReservePrice := by
        simp only [Float64.ge, Float64.lt, hb, hr]
        by_cases hk : bid.Amount.key < a.Item.ReservePrice.key
        · simp [hk]
        · simp [hk, not_lt.mp hk]
      cases h2 : Float64.lt bid.Amount a.Item.ReservePrice
      · cases hc : a.CurrentWinner with
        | none => simp [h1, hge, h2]
        | some w =>
          have hwn : w.Amount.isNaN = false := by simpa [hc] using hw
          have hlt : Float64.lt w.Amount bid.Amount = !Float64.le bid.Amount w.Amount := by
            simp only [Float64.le, Float64.lt, hb, hwn]
            by_cases hk : w.Amount.key < bid.Amount.key
            · simp [hk]
            · simp [hk, not_lt.mp hk]
          cases h3 : Float64.le bid.Amount w.Amount <;> simp [h1, hge, h2, hlt, h3]
      · simp [h1, hge, h2]
    · simp [h1]

/-- Scenario A of the test instantiates C2: reserve 5.0; the bid of 10.0
succeeds, the bid of 2.0 gives ErrBidAmountBelowStartingBid, the bid of 7.0
gives ErrBidAmountBelowCurrentBid, and the winner stays the bid of 10.0. -/
theorem c2_order_of_checks_witness :
    numericAmounts auctionA bid7 = true ∧
      (auctionA.TryBid 3000 bid7).1 = orderAsStated auctionA 3000 bid7 ∧
      ((NewAuction itemA).TryBid 1000 bid10).1 = none ∧
      (auctionA.TryBid 2000 bid2).1 = some BiddingError.ErrBidAmountBelowStartingBid ∧
      (auctionA.TryBid 3000 bid7).1 = some BiddingError.ErrBidAmountBelowCurrentBid ∧
      ((auctionA.TryBid 2000 bid2).2.TryBid 3000 bid7).2.CurrentWinner = some bid10 :=
  ⟨by decide, (c2_order_of_checks auctionA 3000 bid7).2 (by decide), by decide, by decide,
    by decide, by decide⟩

/-! ## C3: the history is strictly increasing -/

/-- C3: in every state reached from NewAuction(item) by TryBid and ChangeTime
calls, of any two consecutive bids of the history the later one has the
strictly greater amount. -/
theorem c3_history_strictly_increasing (item : Item) (ops : List Op) :
    ((NewAuction item).run ops).Bids.Chain'
      (fun earlier later => Float64.lt earlier.Amount later.Amount = true) :=
  (inv_run item ops).increasing

/-! ## C4: the winner is the last bid of the history -/

/-- C4: in every state reached from NewAuction(item) by TryBid and ChangeTime
calls, if the history is not empty then the current winner exists and is the
last element of the history. -/
theorem c4_winner_is_last_bid (item : Item) (ops : List Op)
    (h : ((NewAuction item).run ops).Bids ≠ []) :
    ((NewAuction item).run ops).CurrentWinner =
      some (((NewAuction item).run ops).Bids.getLast h) := by
  rw [(inv_run item ops).winner_last]
  exact List.getLast?_eq_getLast _ h

/-- C4 on the test: after the bids of 10.0 and 7.0 and a change of the end, the
history is not empty and its last bid is the winner. -/
theorem c4_winner_is_last_bid_witness :
    ∃ h : ((NewAuction itemA).run
        [Op.tryBid 1000 bid10, Op.tryBid 2000 bid7, Op.changeTime 5000]).Bids ≠ [],
      ((NewAuction itemA).run
        [Op.tryBid 1000 bid10, Op.tryBid 2000 bid7, Op.changeTime 5000]).CurrentWinner =
        some (((NewAuction itemA).run
          [Op.tryBid 1000 bid10, Op.tryBid 2000 bid7, Op.changeTime 5000]).Bids.getLast h) :=
  ⟨by decide, c4_winner_is_last_bid itemA _ (by decide)⟩

/-! ## The history only grows -/

theorem Auction.step_bids_ne_nil (a : Auction) (op : Op) (h : a.Bids ≠ []) :
    (a.step op).Bids ≠ [] := by
  cases op with
  | changeTime endAt => exact h
  | tryBid now bid =>
    cases hv : a.validateBid now bid with
    | none => simp [Auction.step, Auction.TryBid_none a now bid hv]
    | some e => simpa [Auction.step, Auction.TryBid_some a now bid e hv] using h

theorem Auction.run_bids_ne_nil (ops : List Op) :
    ∀ a : Auction, a.Bids ≠ [] → (a.run ops).Bids ≠ [] := by
  induction ops with
  | nil => intro a h; exact h
  | cons op ops ih => intro a h; exact ih (a.step op) (a.step_bids_ne_nil op h)

/-- Once a TryBid of the sequence has been accepted the history is not empty. -/
theorem Auction.anyAccepted_bids_ne_nil (ops : List Op) :
    ∀ a : Auction, a.anyAccepted ops = true → (a.run ops).Bids ≠ [] := by
  induction ops with
  | nil => intro a h; simp [Auction.anyAccepted] at h
  | cons op ops ih =>
    intro a h
    cases op with
    | changeTime endAt => exact ih (a.ChangeTime endAt) (by simpa [Auction.anyAccepted] using h)
    | tryBid now bid =>
      simp only [Auction.anyAccepted, Bool.or_eq_true] at h
      rcases h with h | h
      · refine Auction.run_bids_ne_nil ops (a.TryBid now bid).2 ?_
        rw [Auction.TryBid_fst, Option.isNone_iff_eq_none] at h
        simp [Auction.TryBid_none a now bid h]
      · exact ih (a.TryBid now bid).2 h

/-- In a state that satisfies the invariant the winner is a bid of the history. -/
theorem AuctionInv.winner_mem {item : Item} {s : Auction} (h : AuctionInv item s) (w : Bid)
    (hw : s.CurrentWinner = some w) : w ∈ s.Bids :=
  List.mem_of_getLast?_eq_some (by rw [← h.winner_last]; exact hw)

/-! ## C5: the winner holds the maximum amount -/

/-- C5: in every state reached from NewAuction(item) by TryBid and ChangeTime
calls of which at least one TryBid was accepted, there is a current winner, it
is a bid of the history, no bid of the history has a greater amount, and after
any further TryBid the winner's amount is greater than or equal to what it
was. -/
theorem c5_winner_amount_is_maximum (item : Item) (ops : List Op)
    (h : (NewAuction item).anyAccepted ops = true) :
    ∃ w, ((NewAuction item).run ops).CurrentWinner = some w ∧
      w ∈ ((NewAuction item).run ops).Bids ∧
      (∀ b ∈ ((NewAuction item).run ops).Bids, Float64.le b.Amount w.Amount = true) ∧
      ∀ (now : Time) (bid : Bid), ∃ v,
        (((NewAuction item).run ops).TryBid now bid).2.CurrentWinner = some v ∧
          Float64.ge v.Amount w.Amount = true := by
  have hinv := inv_run item ops
  have hne := Auction.anyAccepted_bids_ne_nil ops (NewAuction item) h
  generalize (NewAuction item).run ops = s at hinv hne
  cases hc : s.CurrentWinner with
  | none =>
    exact absurd (List.getLast?_eq_none_iff.mp (by rw [← hinv.winner_last]; exact hc)) hne
  | some w =>
    have hmem := hinv.winner_mem w hc
    have hww := (Float64.le_iff _ _).mp (hinv.winner_max w hc w hmem)
    refine ⟨w, rfl, hmem, hinv.winner_max w hc, ?_⟩
    intro now bid
    cases hv : s.validateBid now bid with
    | some e =>
      rw [Auction.TryBid_some s now bid e hv]
      exact ⟨w, hc, (Float64.ge_iff _ _).mpr ⟨hww.1, hww.1, le_refl _⟩⟩
    | none =>
      rw [Auction.TryBid_none s now bid hv]
      have hlt := (Float64.lt_iff _ _).mp ((Auction.validateBid_none s now bid hv).2.2 w hc)
      exact ⟨bid, rfl, (Float64.ge_iff _ _).mpr ⟨hlt.2.1, hlt.1, le_of_lt hlt.2.2⟩⟩

/-- C5 on the test: after the bids of 10.0 (accepted), 2.0 and 7.0 (rejected)
the winner is the bid of 10.0, the maximum of the history. -/
theorem c5_winner_amount_is_maximum_witness :
    (NewAuction itemA).anyAccepted
        [Op.tryBid 1000 bid10, Op.tryBid 2000 bid2, Op.tryBid 3000 bid7] = true ∧
      ∃ w, ((NewAuction itemA).run
          [Op.tryBid 1000 bid10, Op.tryBid 2000 bid2, Op.tryBid 3000 bid7]).CurrentWinner =
            some w ∧
        w ∈ ((NewAuction itemA).run
          [Op.tryBid 1000 bid10, Op.tryBid 2000 bid2, Op.tryBid 3000 bid7]).Bids ∧
        (∀ b ∈ ((NewAuction itemA).run
            [Op.tryBid 1000 bid10, Op.tryBid 2000 bid2, Op.tryBid 3000 bid7]).Bids,
          Float64.le b.Amount w.Amount = true) ∧
        ∀ (now : Time) (bid : Bid), ∃ v,
          (((NewAuction itemA).run
            [Op.tryBid 1000 bid10, Op.tryBid 2000 bid2, Op.tryBid 3000 bid7]).TryBid
              now bid).2.CurrentWinner = some v ∧
            Float64.ge v.Amount w.Amount = true :=
  ⟨by decide, c5_winner_amount_is_maximum itemA _ (by decide)⟩

/-! ## C6: every accepted bid meets the reserve -/

/-- C6: in every state reached from NewAuction(item) by TryBid and ChangeTime
calls, every bid of the history has an amount greater than or equal to the
ReservePrice of the item. -/
theorem c6_history_meets_reserve (item : Item) (ops : List Op) (b : Bid)
    (hb : b ∈ ((NewAuction item).run ops).Bids) :
    Float64.ge b.Amount ((NewAuction item).run ops).Item.ReservePrice = true := by
  rw [(inv_run item ops).reservePrice]
  exact (inv_run item ops).reserve b hb

/-- C6 on the test: the bid of 10.0 is in the history and meets the reserve of
5.0. -/
theorem c6_history_meets_reserve_witness :
    bid10 ∈ ((NewAuction itemA).run [Op.tryBid 1000 bid10, Op.tryBid 2000 bid2]).Bids ∧
      Float64.ge bid10.Amount
        ((NewAuction itemA).run [Op.tryBid 1000 bid10, Op.tryBid 2000 bid2]).Item.ReservePrice =
          true :=
  ⟨by decide, c6_history_meets_reserve itemA _ bid10 (by decide)⟩

/-! ## C7: no bid once the end is reached -/

/-- C7: for every auction and every instant now that is not before EndAt, the
instant EndAt itself included, TryBid returns ErrAuctionOver whatever the bid,
and the auction, its history and its winner included, is left as it was. -/
theorem c7_over_rejects_every_bid (a : Auction) (now : Time) (bid : Bid)
    (h : ¬ now < a.Item.EndAt) :
    a.TryBid now bid = (some BiddingError.ErrAuctionOver, a) :=
  Auction.TryBid_some a now bid _ (Auction.validateBid_over a now bid h)

/-- Scenario B of the test instantiates C7: the end is moved to 1ms after the
call; two seconds later the bid of 100.0 fails with ErrAuctionOver and the
winner is still the bid of 10.0. -/
theorem c7_over_rejects_every_bid_witness :
    ¬ (2000000000 : Time) < auctionB.Item.EndAt ∧
      auctionB.TryBid 2000000000 bid100 = (some BiddingError.ErrAuctionOver, auctionB) ∧
      auctionB.CurrentWinner = some bid10 :=
  ⟨by decide, c7_over_rejects_every_bid auctionB 2000000000 bid100 (by decide), by decide⟩

/-! ## C8: closure and ChangeTime -/

/-- C8, as stated, fails: auctionB is over at the instant 2000000000 and the
bid of 100.0 is rejected with ErrAuctionOver; a ChangeTime then moves the end
forward, and the same bid, made later still, is accepted, becomes the winner
and is appended to the history. -/
theorem c8_changeTime_reopens_auction :
    auctionB.Item.EndAt ≤ 2000000000 ∧
      nonDecreasingFrom 2000000000 callsReopening = true ∧
      (auctionB.trace callsReopening).map Event.err =
        [some BiddingError.ErrAuctionOver, none, none] ∧
      (auctionB.trace callsReopening).map (fun ev => ev.state.CurrentWinner) =
        [some bid10, some bid10, some bid100] ∧
      (auctionB.trace callsReopening).map (fun ev => ev.state.Bids) =
        [[bid10], [bid10], [bid10, bid100]] := by
  decide

/-- C8, amended: once an instant t0 not before EndAt has been reached, then
for every later sequence of TryBid, ChangeTime, GetWinner and GetBidHistory
calls made at non-decreasing instants in which no ChangeTime sets the end to an
instant after that of its own call, every TryBid fails with ErrAuctionOver
whatever the amount, and after every call the history and the winner are what
they were at t0. -/
theorem c8_closure_final_without_extension (a : Auction) (t0 : Time)
    (calls : List (Time × Call)) (hover : a.Item.EndAt ≤ t0)
    (htimes : nonDecreasingFrom t0 calls = true)
    (hend : (calls.all fun x => Call.endNotAfter x.1 x.2) = true) :
    ∀ ev ∈ a.trace calls,
      ev.state.Bids = a.Bids ∧ ev.state.CurrentWinner = a.CurrentWinner ∧
        ∀ bid, ev.call = Call.tryBid bid → ev.err = some BiddingError.ErrAuctionOver := by
  induction calls generalizing a t0 with
  | nil => intro ev hev; simp [Auction.trace] at hev
  | cons x rest ih =>
    obtain ⟨t, c⟩ := x
    simp only [nonDecreasingFrom, Bool.and_eq_true, decide_eq_true_eq] at htimes
    simp only [List.all_cons, Bool.and_eq_true] at hend
    obtain ⟨ht, hrest⟩ := htimes
    obtain ⟨hc, hall⟩ := hend
    have key : (a.call t c).2.Bids = a.Bids ∧ (a.call t c).2.CurrentWinner = a.CurrentWinner ∧
        (a.call t c).2.Item.EndAt ≤ t ∧
        ∀ bid, c = Call.tryBid bid → (a.call t c).1 = some BiddingError.ErrAuctionOver := by
      cases c with
      | tryBid bid =>
        have hnot : ¬ t < a.Item.EndAt := not_lt.mpr (le_trans hover ht)
        have hr : a.call t (Call.tryBid bid) = (some BiddingError.ErrAuctionOver, a) :=
          Auction.TryBid_some a t bid _ (Auction.validateBid_over a t bid hnot)
        rw [hr]
        exact ⟨rfl, rfl, le_trans hover ht, fun _ _ => rfl⟩
      | changeTime endAt =>
        refine ⟨rfl, rfl, ?_, fun bid hbid => by cases hbid⟩
        simpa [Call.endNotAfter] using hc
      | getWinner => exact ⟨rfl, rfl, le_trans hover ht, fun bid hbid => by cases hbid⟩
      | getBidHistory => exact ⟨rfl, rfl, le_trans hover ht, fun bid hbid => by cases hbid⟩
    obtain ⟨kb, kw, ke, kerr⟩ := key
    intro ev hev
    simp only [Auction.trace, List.mem_cons] at hev
    rcases hev with hev | hev
    · subst hev
      exact ⟨kb, kw, kerr⟩
    · have := ih (a.call t c).2 t ke hrest hall ev hev
      rw [kb, kw] at this
      exact this

/-- C8, amended, on the test: after the end of auctionB five calls, one of them
a ChangeTime to an instant already past, leave the history and the winner as
they were and reject both bids of 100.0. -/
theorem c8_closure_final_without_extension_witness :
    auctionB.Item.EndAt ≤ 2000000000 ∧
      nonDecreasingFrom 2000000000 callsClosed = true ∧
      (callsClosed.all fun x => Call.endNotAfter x.1 x.2) = true ∧
      ∀ ev ∈ auctionB.trace callsClosed,
        ev.state.Bids = auctionB.Bids ∧ ev.state.CurrentWinner = auctionB.CurrentWinner ∧
          ∀ bid, ev.call = Call.tryBid bid → ev.err = some BiddingError.ErrAuctionOver :=
  ⟨by decide, by decide, by decide,
    c8_closure_final_without_extension auctionB 2000000000 callsClosed (by decide) (by decide)
      (by decide)⟩

/-! ## C9: bids below the reserve -/

/-- C9, as stated, fails: once auctionB is over, the bid of 2.0, below the
reserve of 5.0, is rejected with ErrAuctionOver and not with
ErrBidAmountBelowStartingBid. -/
theorem c9_below_reserve_after_end :
    Float64.lt bid2.Amount auctionB.Item.ReservePrice = true ∧
      (auctionB.TryBid 2000000000 bid2).1 = some BiddingError.ErrAuctionOver ∧
      (auctionB.TryBid 2000000000 bid2).1 ≠
        some BiddingError.ErrBidAmountBelowStartingBid := by
  decide

/-- C9, amended: for every auction, with or without a winner, a bid whose
amount is below the ReservePrice is always rejected and the auction is left as
it was: with ErrBidAmountBelowStartingBid when now is before EndAt, and with
ErrAuctionOver when it is not. -/
theorem c9_below_reserve_rejected (a : Auction) (now : Time) (bid : Bid)
    (h : Float64.lt bid.Amount a.Item.ReservePrice = true) :
    a.TryBid now bid =
      (some (if now < a.Item.EndAt then BiddingError.ErrBidAmountBelowStartingBid
        else BiddingError.ErrAuctionOver), a) := by
  by_cases h1 : now < a.Item.EndAt
  · rw [if_pos h1]
    apply Auction.TryBid_some
    have hlt := (Float64.lt_iff _ _).mp h
    have hge : Float64.ge bid.Amount a.Item.ReservePrice = false := by
      cases hg : Float64.ge bid.Amount a.Item.ReservePrice
      · rfl
      · have := (Float64.ge_iff _ _).mp hg
        omega
    simp [Auction.validateBid, Item.AuctionOngoing, Item.ReservePriceMet, h1, hge]
  · rw [if_neg h1]
    exact Auction.TryBid_some a now bid _ (Auction.validateBid_over a now bid h1)

/-- C9, amended, on the test: the bid of 2.0 is rejected with
ErrBidAmountBelowStartingBid on the fresh auction, which has no winner, and on
the auction whose winner is the bid of 10.0. -/
theorem c9_below_reserve_rejected_witness :
    Float64.lt bid2.Amount (NewAuction itemA).Item.ReservePrice = true ∧
      (NewAuction itemA).TryBid 500 bid2 =
        (some BiddingError.ErrBidAmountBelowStartingBid, NewAuction itemA) ∧
      auctionA.TryBid 2000 bid2 =
        (some BiddingError.ErrBidAmountBelowStartingBid, auctionA) :=
  ⟨by decide, c9_below_reserve_rejected (NewAuction itemA) 500 bid2 (by decide), by decide⟩

/-! ## C10: ties do not win -/

/-- C10: in every state reached from NewAuction(item) by TryBid and ChangeTime
calls that has a current winner, a TryBid made while now is before EndAt with a
bid whose amount equals the winner's amount returns
ErrBidAmountBelowCurrentBid and leaves the auction, its winner included, as it
was. -/
theorem c10_tie_rejected (item : Item) (ops : List Op) (now : Time) (bid w : Bid)
    (hw : ((NewAuction item).run ops).CurrentWinner = some w)
    (hnow : now < ((NewAuction item).run ops).Item.EndAt)
    (htie : Float64.eq bid.Amount w.Amount = true) :
    ((NewAuction item).run ops).TryBid now bid =
      (some BiddingError.ErrBidAmountBelowCurrentBid, (NewAuction item).run ops) := by
  have hinv := inv_run item ops
  generalize (NewAuction item).run ops = s at hinv hw hnow
  apply Auction.TryBid_some
  have he := (Float64.eq_iff _ _).mp htie
  have hres := (Float64.ge_iff _ _).mp (hinv.reserve w (hinv.winner_mem w hw))
  have hge : Float64.ge bid.Amount s.Item.ReservePrice = true := by
    rw [hinv.reservePrice]
    exact (Float64.ge_iff _ _).mpr ⟨he.1, hres.2.1, by omega⟩
  have hlt : Float64.lt w.Amount bid.Amount = false := by
    cases hl : Float64.lt w.Amount bid.Amount
    · rfl
    · have := (Float64.lt_iff _ _).mp hl
      omega
  simp [Auction.validateBid, Item.AuctionOngoing, Item.ReservePriceMet, currentBidIsLessThan,
    hnow, hge, hw, hlt]

/-- C10 on the test: a second bid of 10.0, by another bidder, against the
winning bid of 10.0 returns ErrBidAmountBelowCurrentBid and the winner stays. -/
theorem c10_tie_rejected_witness :
    ((NewAuction itemA).run [Op.tryBid 1000 bid10]).CurrentWinner = some bid10 ∧
      (2000 : Time) < ((NewAuction itemA).run [Op.tryBid 1000 bid10]).Item.EndAt ∧
      Float64.eq ({ bid7 with Amount := f10 } : Bid).Amount bid10.Amount = true ∧
      ((NewAuction itemA).run [Op.tryBid 1000 bid10]).TryBid 2000 { bid7 with Amount := f10 } =
        (some BiddingError.ErrBidAmountBelowCurrentBid,
          (NewAuction itemA).run [Op.tryBid 1000 bid10]) :=
  ⟨by decide, by decide, by decide,
    c10_tie_rejected itemA [Op.tryBid 1000 bid10] 2000 { bid7 with Amount := f10 } bid10
      (by decide) (by decide) (by decide)⟩

/-! ## What a call leaves alone -/

/-- TryBid never changes the item. -/
theorem Auction.TryBid_item (a : Auction) (now : Time) (bid : Bid) :
    (a.TryBid now bid).2.Item = a.Item := by
  cases hv : a.validateBid now bid with
  | none => rw [Auction.TryBid_none a now bid hv]
  | some e => rw [Auction.TryBid_some a now bid e hv]

/-- The result of validateBid while the auction is ongoing and the reserve is
met: only the comparison with the winner is left. -/
theorem Auction.validateBid_ongoing (a : Auction) (now : Time) (bid : Bid)
    (hnow : now < a.Item.EndAt) (hres : Float64.ge bid.Amount a.Item.ReservePrice = true) :
    a.validateBid now bid =
      match a.CurrentWinner with
      | none => none
      | some v =>
        if Float64.lt v.Amount bid.Amount = true then none
        else some BiddingError.ErrBidAmountBelowCurrentBid := by
  unfold Auction.validateBid
  cases hc : a.CurrentWinner with
  | none => simp [Item.AuctionOngoing, Item.ReservePriceMet, hnow, hres]
  | some v =>
    cases hl : Float64.lt v.Amount bid.Amount <;>
      simp [Item.AuctionOngoing, Item.ReservePriceMet, currentBidIsLessThan, hnow, hres, hl]

/-- The history after a sequence of calls is the history before it followed by
some of the submitted bids, in the order of submission. -/
theorem Auction.run_bids_sublist (ops : List Op) :
    ∀ s : Auction, ∃ acc : List Bid,
      (s.run ops).Bids = s.Bids ++ acc ∧ acc.Sublist (submittedBids ops) := by
  induction ops with
  | nil => intro s; exact ⟨[], by simp [Auction.run], by simp [submittedBids]⟩
  | cons op ops ih =>
    intro s
    obtain ⟨acc, hacc, hsub⟩ := ih (s.step op)
    cases op with
    | changeTime endAt =>
      exact ⟨acc, hacc, by simpa [submittedBids, Op.bidOf] using hsub⟩
    | tryBid now bid =>
      cases hv : s.validateBid now bid with
      | some e =>
        refine ⟨acc, ?_, ?_⟩
        · have hs : s.step (Op.tryBid now bid) = s := by
            simp [Auction.step, Auction.TryBid_some s now bid e hv]
          have hr : s.run (Op.tryBid now bid :: ops) = (s.step (Op.tryBid now bid)).run ops :=
            rfl
          rw [hr, hacc, hs]
        · simpa [submittedBids, Op.bidOf] using List.Sublist.cons bid hsub
      | none =>
        refine ⟨bid :: acc, ?_, ?_⟩
        · have hs : (s.step (Op.tryBid now bid)).Bids = s.Bids ++ [bid] := by
            simp [Auction.step, Auction.TryBid_none s now bid hv]
          rw [hs] at hacc
          simpa [Auction.run] using hacc
        · simpa [submittedBids, Op.bidOf] using List.Sublist.cons₂ bid hsub

/-- The bids that a sequence of TryBid calls submits. -/
theorem submittedBids_map (subs : List (Time × Bid)) :
    submittedBids (subs.map fun x => Op.tryBid x.1 x.2) = subs.map Prod.snd := by
  induction subs with
  | nil => rfl
  | cons x rest ih =>
    simp only [submittedBids, List.map_cons, List.filterMap_cons, Op.bidOf] at ih ⊢
    rw [ih]

/-! ## The winner after a run of submissions -/

theorem Float64.le_trans {a b c : Float64} (hab : Float64.le a b = true)
    (hbc : Float64.le b c = true) : Float64.le a c = true := by
  have h1 := (Float64.le_iff _ _).mp hab
  have h2 := (Float64.le_iff _ _).mp hbc
  exact (Float64.le_iff _ _).mpr ⟨h1.1, h2.2.1, Int.le_trans h1.2.2 h2.2.2⟩

/-- One submission to an ongoing auction of a bid that meets the reserve:
afterwards there is a winner, whose amount is at least the amount of the bid
and at least the amount of the winner before; it is the bid or the winner
before. -/
theorem Auction.TryBid_winner (s : Auction) (t : Time) (b : Bid) (hnow : t < s.Item.EndAt)
    (hres : Float64.ge b.Amount s.Item.ReservePrice = true)
    (hnan : ∀ v, s.CurrentWinner = some v → v.Amount.isNaN = false) :
    ∃ u, (s.TryBid t b).2.CurrentWinner = some u ∧ Float64.le b.Amount u.Amount = true ∧
      (u = b ∨ s.CurrentWinner = some u) ∧
      ∀ v, s.CurrentWinner = some v → Float64.le v.Amount u.Amount = true := by
  have hb : b.Amount.isNaN = false := ((Float64.ge_iff _ _).mp hres).1
  have hbb : Float64.le b.Amount b.Amount = true :=
    (Float64.le_iff _ _).mpr ⟨hb, hb, le_refl _⟩
  have hv := Auction.validateBid_ongoing s t b hnow hres
  cases hc : s.CurrentWinner with
  | none =>
    rw [hc] at hv
    rw [Auction.TryBid_none s t b hv]
    exact ⟨b, rfl, hbb, Or.inl rfl, fun v hv => by cases hv⟩
  | some v =>
    have hvn := hnan v hc
    rw [hc] at hv
    cases hl : Float64.lt v.Amount b.Amount with
    | true =>
      simp only [hl, if_true] at hv
      rw [Auction.TryBid_none s t b hv]
      refine ⟨b, rfl, hbb, Or.inl rfl, ?_⟩
      intro v2 hv2
      cases hv2
      have := (Float64.lt_iff _ _).mp hl
      exact (Float64.le_iff _ _).mpr ⟨hvn, hb, le_of_lt this.2.2⟩
    | false =>
      simp only [hl] at hv
      rw [Auction.TryBid_some s t b _ hv]
      refine ⟨v, hc, ?_, Or.inr rfl, ?_⟩
      · have hkey : ¬ v.Amount.key < b.Amount.key := by
          intro hk
          have : Float64.lt v.Amount b.Amount = true := (Float64.lt_iff _ _).mpr ⟨hvn, hb, hk⟩
          rw [hl] at this
          cases this
        exact (Float64.le_iff _ _).mpr ⟨hb, hvn, not_lt.mp hkey⟩
      · intro v2 hv2
        cases hv2
        exact (Float64.le_iff _ _).mpr ⟨hvn, hvn, le_refl _⟩

/-- After bids that meet the reserve have been submitted one after another to
an ongoing auction, the winner has an amount at least that of every submitted
bid and of the winner before, and it is the winner before or a submitted bid. -/
theorem Auction.submit_winner (subs : List (Time × Bid)) :
    ∀ s : Auction, (∀ x ∈ subs, x.1 < s.Item.EndAt) →
      (∀ x ∈ subs, Float64.ge x.2.Amount s.Item.ReservePrice = true) →
      (∀ v, s.CurrentWinner = some v → v.Amount.isNaN = false) →
      (∀ x ∈ subs, ∃ w, (s.submit subs).CurrentWinner = some w ∧
        Float64.le x.2.Amount w.Amount = true) ∧
      (∀ v, s.CurrentWinner = some v → ∃ w, (s.submit subs).CurrentWinner = some w ∧
        Float64.le v.Amount w.Amount = true) ∧
      (∀ w, (s.submit subs).CurrentWinner = some w →
        s.CurrentWinner = some w ∨ w ∈ subs.map Prod.snd) := by
  induction subs with
  | nil =>
    intro s _ _ hnan
    refine ⟨fun x hx => (by cases hx), ?_, fun w hw => Or.inl hw⟩
    intro v hv
    exact ⟨v, hv, (Float64.le_iff _ _).mpr ⟨hnan v hv, hnan v hv, le_refl _⟩⟩
  | cons x rest ih =>
    intro s hnow hres hnan
    obtain ⟨t, b⟩ := x
    have hstep : s.submit ((t, b) :: rest) = (s.TryBid t b).2.submit rest := rfl
    have hitem := Auction.TryBid_item s t b
    obtain ⟨u, hu, hbu, hor, hold⟩ :=
      Auction.TryBid_winner s t b (hnow (t, b) (List.mem_cons_self _ _))
        (hres (t, b) (List.mem_cons_self _ _)) hnan
    have hun : u.Amount.isNaN = false := ((Float64.le_iff _ _).mp hbu).2.1
    obtain ⟨h1, h2, h3⟩ := ih (s.TryBid t b).2
      (fun y hy => by rw [hitem]; exact hnow y (List.mem_cons_of_mem _ hy))
      (fun y hy => by rw [hitem]; exact hres y (List.mem_cons_of_mem _ hy))
      (fun v hv => by rw [hu] at hv; cases hv; exact hun)
    obtain ⟨w, hw, huw⟩ := h2 u hu
    rw [hstep]
    refine ⟨?_, ?_, ?_⟩
    · intro y hy
      rcases List.mem_cons.mp hy with hy | hy
      · subst hy
        exact ⟨w, hw, Float64.le_trans hbu huw⟩
      · exact h1 y hy
    · intro v hv
      exact ⟨w, hw, Float64.le_trans (hold v hv) huw⟩
    · intro w2 hw2
      rcases h3 w2 hw2 with h | h
      · rw [hu] at h
        cases h
        rcases hor with hor | hor
        · right
          simp [hor]
        · exact Or.inl hor
      · right
        simp only [List.map_cons, List.mem_cons]
        exact Or.inr h

/-! ## C11: the highest bid wins in every order -/

/-- C11: for every list of bids with pairwise distinct amounts, each at least
the ReservePrice, and for every order in which they are submitted one after
another by TryBid to a fresh auction while it is ongoing, the final current
winner is the bid of the list with the maximum amount. -/
theorem c11_highest_bid_wins_any_order (item : Item) (bids : List Bid)
    (subs : List (Time × Bid)) (m : Bid)
    (hdistinct : bids.Pairwise fun x y => Float64.eq x.Amount y.Amount = false)
    (hres : ∀ b ∈ bids, Float64.ge b.Amount item.ReservePrice = true)
    (horder : (subs.map Prod.snd).Perm bids)
    (hnow : ∀ x ∈ subs, x.1 < item.EndAt)
    (hm : m ∈ bids) (hmax : ∀ b ∈ bids, Float64.le b.Amount m.Amount = true) :
    ((NewAuction item).submit subs).CurrentWinner = some m := by
  have hmsub : m ∈ subs.map Prod.snd := horder.mem_iff.mpr hm
  obtain ⟨x, hx, hxm⟩ := List.mem_map.mp hmsub
  obtain ⟨h1, _, h3⟩ := Auction.submit_winner subs (NewAuction item) hnow
    (fun y hy => hres y.2 (horder.mem_iff.mp (List.mem_map.mpr ⟨y, hy, rfl⟩)))
    (fun v hv => by cases hv)
  obtain ⟨w, hw, hle⟩ := h1 x hx
  rw [hxm] at hle
  have hwb : w ∈ bids := by
    rcases h3 w hw with h | h
    · cases h
    · exact horder.mem_iff.mp h
  have hwm := (Float64.le_iff _ _).mp (hmax w hwb)
  have hmw := (Float64.le_iff _ _).mp hle
  have heq : Float64.eq w.Amount m.Amount = true :=
    (Float64.eq_iff _ _).mpr ⟨hwm.1, hwm.2.1, le_antisymm hwm.2.2 hmw.2.2⟩
  have hsame : w = m := by
    by_contra hne
    have hsymm : Symmetric fun x y : Bid => Float64.eq x.Amount y.Amount = false := by
      intro a b hab
      cases hba : Float64.eq b.Amount a.Amount
      · rfl
      · have := (Float64.eq_iff _ _).mp hba
        have : Float64.eq a.Amount b.Amount = true :=
          (Float64.eq_iff _ _).mpr ⟨this.2.1, this.1, this.2.2.symm⟩
        rw [hab] at this
        cases this
    have := hdistinct.forall hsymm hwb hm hne
    rw [heq] at this
    cases this
  rw [hw, hsame]

/-- C11 on the test, made small: the bids of 10.0, 7.0 and 100.0 submitted in
the order 7.0, 100.0, 10.0 end with the bid of 100.0 as the winner. -/
theorem c11_highest_bid_wins_any_order_witness :
    ([bid10, bid7, bid100].Pairwise fun x y => Float64.eq x.Amount y.Amount = false) ∧
      (∀ b ∈ [bid10, bid7, bid100], Float64.ge b.Amount itemA.ReservePrice = true) ∧
      ([(1000, bid7), (2000, bid100), (3000, bid10)].map Prod.snd).Perm [bid10, bid7, bid100] ∧
      (∀ x ∈ [((1000 : Time), bid7), (2000, bid100), (3000, bid10)], x.1 < itemA.EndAt) ∧
      bid100 ∈ [bid10, bid7, bid100] ∧
      (∀ b ∈ [bid10, bid7, bid100], Float64.le b.Amount bid100.Amount = true) ∧
      ((NewAuction itemA).submit [(1000, bid7), (2000, bid100), (3000, bid10)]).CurrentWinner =
        some bid100 :=
  ⟨by decide, by decide, by decide, by decide, by decide, by decide,
    c11_highest_bid_wins_any_order itemA [bid10, bid7, bid100]
      [(1000, bid7), (2000, bid100), (3000, bid10)] bid100 (by decide) (by decide) (by decide)
      (by decide) (by decide) (by decide)⟩

/-! ## C12: how many of the submitted bids are recorded -/

/-- Bids submitted in strictly increasing order of amount to an ongoing
auction, each meeting the reserve and the first above the winner, are all
accepted. -/
theorem Auction.submit_increasing (subs : List (Time × Bid)) :
    ∀ s : Auction, (∀ x ∈ subs, x.1 < s.Item.EndAt) →
      (∀ x ∈ subs, Float64.ge x.2.Amount s.Item.ReservePrice = true) →
      (subs.map Prod.snd).Chain' (fun x y => Float64.lt x.Amount y.Amount = true) →
      (∀ v, s.CurrentWinner = some v → ∀ b ∈ (subs.map Prod.snd).head?,
        Float64.lt v.Amount b.Amount = true) →
      (s.submit subs).Bids = s.Bids ++ subs.map Prod.snd := by
  induction subs with
  | nil => intro s _ _ _ _; simp [Auction.submit, Auction.run]
  | cons x rest ih =>
    intro s hnow hres hchain hhead
    obtain ⟨t, b⟩ := x
    have hstep : s.submit ((t, b) :: rest) = (s.TryBid t b).2.submit rest := rfl
    have hv := Auction.validateBid_ongoing s t b (hnow (t, b) (List.mem_cons_self _ _))
      (hres (t, b) (List.mem_cons_self _ _))
    have hnone : s.validateBid t b = none := by
      cases hc : s.CurrentWinner with
      | none => rw [hc] at hv; exact hv
      | some v =>
        rw [hc] at hv
        have hl : Float64.lt v.Amount b.Amount = true := hhead v hc b (by simp)
        simpa [hl] using hv
    simp only [List.map_cons, List.chain'_cons'] at hchain
    have hitem := Auction.TryBid_item s t b
    have hrest := ih (s.TryBid t b).2
      (fun y hy => by rw [hitem]; exact hnow y (List.mem_cons_of_mem _ hy))
      (fun y hy => by rw [hitem]; exact hres y (List.mem_cons_of_mem _ hy))
      hchain.2
      (fun v hv2 b2 hb2 => by
        rw [Auction.TryBid_none s t b hnone] at hv2
        cases hv2
        exact hchain.1 b2 hb2)
    rw [hstep, hrest, Auction.TryBid_none s t b hnone]
    simp

/-- C12, as stated, fails: the bids of 10.0 and 100.0 have distinct amounts,
both at least the reserve of 5.0; submitted in the order 100.0, 10.0 to the
fresh, ongoing auction, the second is rejected with
ErrBidAmountBelowCurrentBid and the history has length 1, not 2. -/
theorem c12_descending_order_loses_bid :
    ([bid10, bid100].Pairwise fun x y => Float64.eq x.Amount y.Amount = false) ∧
      (∀ b ∈ [bid10, bid100], Float64.ge b.Amount itemA.ReservePrice = true) ∧
      [bid100, bid10].Perm [bid10, bid100] ∧
      (1000 : Time) < itemA.EndAt ∧ (2000 : Time) < itemA.EndAt ∧
      (((NewAuction itemA).TryBid 1000 bid100).2.TryBid 2000 bid10).1 =
        some BiddingError.ErrBidAmountBelowCurrentBid ∧
      ((NewAuction itemA).submit [(1000, bid100), (2000, bid10)]).Bids.length = 1 ∧
      [bid10, bid100].length = 2 := by
  decide

/-- C12, amended: for every list of N bids, each at least the ReservePrice,
submitted one after another by TryBid to a fresh auction while it is ongoing,
the final history has at most N bids, and it has exactly N bids if and only if
the bids are submitted in strictly increasing order of amount. -/
theorem c12_history_length_of_submissions (item : Item) (subs : List (Time × Bid))
    (hres : ∀ x ∈ subs, Float64.ge x.2.Amount item.ReservePrice = true)
    (hnow : ∀ x ∈ subs, x.1 < item.EndAt) :
    ((NewAuction item).submit subs).Bids.length ≤ subs.length ∧
      (((NewAuction item).submit subs).Bids.length = subs.length ↔
        (subs.map Prod.snd).Chain' (fun x y => Float64.lt x.Amount y.Amount = true)) := by
  obtain ⟨acc, hacc, hsub⟩ :=
    Auction.run_bids_sublist (subs.map fun x => Op.tryBid x.1 x.2) (NewAuction item)
  rw [submittedBids_map] at hsub
  have hbids : ((NewAuction item).submit subs).Bids = acc := by
    simpa [NewAuction, Auction.submit] using hacc
  have hlen : acc.length ≤ subs.length := by
    simpa using hsub.length_le
  refine ⟨by rw [hbids]; exact hlen, ?_, ?_⟩
  · intro h
    rw [hbids] at h
    have hall : acc = subs.map Prod.snd := hsub.eq_of_length (by simpa using h)
    have hinc := (inv_run item (subs.map fun x => Op.tryBid x.1 x.2)).increasing
    have hb2 : ((NewAuction item).run (subs.map fun x => Op.tryBid x.1 x.2)).Bids = acc := hbids
    rw [hb2, hall] at hinc
    exact hinc
  · intro h
    have := Auction.submit_increasing subs (NewAuction item) hnow hres h
      (fun v hv => by cases hv)
    rw [this]
    simp [NewAuction]

/-- C12, amended, on the test, made small: the bids of 7.0, 10.0 and 100.0
submitted in this, increasing, order are all recorded. -/
theorem c12_history_length_of_submissions_witness :
    (∀ x ∈ [((1000 : Time), bid7), (2000, bid10), (3000, bid100)],
        Float64.ge x.2.Amount itemA.ReservePrice = true) ∧
      (∀ x ∈ [((1000 : Time), bid7), (2000, bid10), (3000, bid100)], x.1 < itemA.EndAt) ∧
      ([((1000 : Time), bid7), (2000, bid10), (3000, bid100)].map Prod.snd).Chain'
        (fun x y => Float64.lt x.Amount y.Amount = true) ∧
      ((NewAuction itemA).submit [(1000, bid7), (2000, bid10), (3000, bid100)]).Bids.length =
        [((1000 : Time), bid7), (2000, bid10), (3000, bid100)].length := by
  have h := c12_history_length_of_submissions itemA
    [(1000, bid7), (2000, bid10), (3000, bid100)] (by decide) (by decide)
  have hc : ([((1000 : Time), bid7), (2000, bid10), (3000, bid100)].map Prod.snd).Chain'
      (fun x y => Float64.lt x.Amount y.Amount = true) := by
    simp only [List.map_cons, List.map_nil, List.chain'_cons, List.chain'_singleton, and_true]
    exact ⟨by decide, by decide⟩
  exact ⟨by decide, by decide, hc, h.2.mpr hc⟩

/-! ## C13: the window of the auction -/

/-- C13, as stated, fails: the auction of itemLater starts at the instant 1000,
and at the instant 0, before the start, TryBid accepts the bid of 10.0. -/
theorem c13_bid_accepted_before_start :
    ((NewAuction itemLater).TryBid 0 bid10).1 = none ∧
      ((NewAuction itemLater).TryBid 0 bid10).2.CurrentWinner = some bid10 ∧
      ¬ (NewAuction itemLater).Item.StartingAt ≤ 0 := by
  decide

/-- C13, amended: bids are accepted only before the end: for every auction,
bid and instant now, if TryBid accepts the bid then now is before EndAt; and
StartingAt is not consulted: TryBid returns the same error whatever StartingAt
is. -/
theorem c13_accepted_only_before_end (a : Auction) (now : Time) (bid : Bid) :
    ((a.TryBid now bid).1 = none → now < a.Item.EndAt) ∧
      ∀ startingAt : Time,
        (Auction.TryBid { a with Item := { a.Item with StartingAt := startingAt } } now bid).1 =
          (a.TryBid now bid).1 := by
  constructor
  · intro h
    rw [Auction.TryBid_fst] at h
    exact (Auction.validateBid_none a now bid h).1
  · intro startingAt
    rw [Auction.TryBid_fst, Auction.TryBid_fst]
    rfl

/-- C13, amended, on the test: the bid of 100.0 is accepted at the instant
2000, which is before the end of the auction. -/
theorem c13_accepted_only_before_end_witness :
    (auctionA.TryBid 2000 bid100).1 = none ∧ (2000 : Time) < auctionA.Item.EndAt :=
  ⟨by decide, (c13_accepted_only_before_end auctionA 2000 bid100).1 (by decide)⟩

/-! ## C14: what each operation changes -/

/-- C14: ChangeTime(t) sets the EndAt of the item to t and leaves its ID, Name,
ReservePrice and StartingAt, the current winner and the history as they were;
TryBid, GetWinner and GetBidHistory leave the item as it was. -/
theorem c14_only_endAt_changes (a : Auction) (now t : Time) (bid : Bid) :
    (a.ChangeTime t).Item.EndAt = t ∧
      (a.ChangeTime t).Item.ID = a.Item.ID ∧
      (a.ChangeTime t).Item.Name = a.Item.Name ∧
      (a.ChangeTime t).Item.ReservePrice = a.Item.ReservePrice ∧
      (a.ChangeTime t).Item.StartingAt = a.Item.StartingAt ∧
      (a.ChangeTime t).CurrentWinner = a.CurrentWinner ∧
      (a.ChangeTime t).Bids = a.Bids ∧
      (a.TryBid now bid).2.Item = a.Item ∧
      (a.call now Call.getWinner).2.Item = a.Item ∧
      (a.call now Call.getBidHistory).2.Item = a.Item :=
  ⟨rfl, rfl, rfl, rfl, rfl, rfl, rfl, Auction.TryBid_item a now bid, rfl, rfl⟩

/-! ## C15: the order of the history -/

/-- C15, as stated, fails: a bid of 100.0 is created at second 3 and a bid of
10.0 at second 5; the bid of 10.0 is submitted first and both are accepted, so
the Timestamp values of the history are 5, 3. -/
theorem c15_history_timestamps_out_of_order :
    ((NewAuction itemA).run
        [Op.tryBid 6000000000 bidLate10, Op.tryBid 7000000000 bidEarly100]).Bids =
        [bidLate10, bidEarly100] ∧
      ((NewAuction itemA).run
        [Op.tryBid 6000000000 bidLate10, Op.tryBid 7000000000 bidEarly100]).Bids.map
          Bid.Timestamp = [5, 3] ∧
      ¬ (5 : Int) ≤ 3 := by
  decide

/-- C15, amended: in every state reached from NewAuction(item) by TryBid and
ChangeTime calls, the history holds accepted bids in the order in which they
were submitted; when the bids are submitted in non-decreasing order of
Timestamp, the Timestamp values of the history are in non-decreasing order from
first to last. -/
theorem c15_history_in_submission_order (item : Item) (ops : List Op) :
    ((NewAuction item).run ops).Bids.Sublist (submittedBids ops) ∧
      ((submittedBids ops).Pairwise (fun x y => x.Timestamp ≤ y.Timestamp) →
        ((NewAuction item).run ops).Bids.Pairwise (fun x y => x.Timestamp ≤ y.Timestamp)) := by
  obtain ⟨acc, hacc, hsub⟩ := Auction.run_bids_sublist ops (NewAuction item)
  have hb : ((NewAuction item).run ops).Bids = acc := by simpa [NewAuction] using hacc
  rw [hb]
  exact ⟨hsub, fun h => h.sublist hsub⟩

/-- C15, amended, on the test: the bids of 10.0, 2.0 and 100.0, created at
seconds 0, 0 and 2, are submitted in this order; the history is in
non-decreasing order of Timestamp. -/
theorem c15_history_in_submission_order_witness :
    (submittedBids [Op.tryBid 1000 bid10, Op.tryBid 2000 bid2, Op.changeTime 9000,
        Op.tryBid 3000 bid100]).Pairwise (fun x y => x.Timestamp ≤ y.Timestamp) ∧
      ((NewAuction itemA).run [Op.tryBid 1000 bid10, Op.tryBid 2000 bid2, Op.changeTime 9000,
        Op.tryBid 3000 bid100]).Bids.Pairwise (fun x y => x.Timestamp ≤ y.Timestamp) :=
  ⟨by decide, (c15_history_in_submission_order itemA _).2 (by decide)⟩

/-! ## C17: ChangeTime and the mutex -/

/-- TryBid makes every write between its `Lock` and its `Unlock`. -/
theorem Auction.TryBid_writesUnderLock (a : Auction) (now : Time) (bid : Bid) :
    writesUnderLock false (a.TryBidAccesses now bid) = true := by
  unfold Auction.TryBidAccesses Auction.validateBidAccesses
  cases a.Item.AuctionOngoing now <;> cases a.Item.ReservePriceMet bid.Amount <;>
    cases a.CurrentWinner <;> cases (a.validateBid now bid).isNone <;>
    simp [writesUnderLock, Access.isWrite]

/-- C17 fails on the code: ChangeTime never takes the mutex, so its write of
EndAt is not made under the lock, while every write of TryBid is.  In the
schedule shown, which the mutex allows and which runs the accesses of
`auctionA.TryBid` and of `auctionA.ChangeTime` in program order, ChangeTime
writes EndAt while TryBid holds the lock and has read EndAt to validate its
bid. -/
theorem c17_changeTime_writes_endAt_without_lock :
    Access.lock ∉ ChangeTimeAccesses ∧
      writesUnderLock false ChangeTimeAccesses = false ∧
      writesUnderLock false (auctionA.TryBidAccesses 2000 bid100) = true ∧
      accessesOf 0 scheduleRace = auctionA.TryBidAccesses 2000 bid100 ∧
      accessesOf 1 scheduleRace = ChangeTimeAccesses ∧
      MutexState.allows { writer := none, readers := [] } scheduleRace = true ∧
      MutexState.racyEndAtWrite { writer := none, readers := [] } false scheduleRace = true := by
  decide

/-! ## C18: a winner exactly when the history is not empty -/

/-- C18: in every state reached from NewAuction(item) by TryBid and ChangeTime
calls, there is no current winner if and only if the history is empty; the
fresh auction has no winner and an empty history; and a current winner is
always a bid of the history. -/
theorem c18_winner_absent_iff_history_empty (item : Item) (ops : List Op) :
    (((NewAuction item).run ops).CurrentWinner = none ↔
        ((NewAuction item).run ops).Bids = []) ∧
      (NewAuction item).CurrentWinner = none ∧ (NewAuction item).Bids = [] ∧
      ∀ w, ((NewAuction item).run ops).CurrentWinner = some w →
        w ∈ ((NewAuction item).run ops).Bids := by
  have hinv := inv_run item ops
  refine ⟨?_, rfl, rfl, fun w hw => hinv.winner_mem w hw⟩
  rw [hinv.winner_last]
  exact List.getLast?_eq_none_iff

/-- C18 on the test: after the bid of 10.0 the winner is that bid and it is in
the history. -/
theorem c18_winner_absent_iff_history_empty_witness :
    ((NewAuction itemA).run [Op.tryBid 1000 bid10, Op.tryBid 2000 bid2]).CurrentWinner =
        some bid10 ∧
      bid10 ∈ ((NewAuction itemA).run [Op.tryBid 1000 bid10, Op.tryBid 2000 bid2]).Bids :=
  ⟨by decide,
    (c18_winner_absent_iff_history_empty itemA
      [Op.tryBid 1000 bid10, Op.tryBid 2000 bid2]).2.2.2 bid10 (by decide)⟩

/-! ## C19: acceptance is monotone in the amount -/

/-- When TryBid accepts a bid it accepts, in the same state at the same
instant, every bid of a greater or equal amount. -/
theorem Auction.TryBid_accepts_higher (a : Auction) (now : Time) (bid other : Bid)
    (hacc : (a.TryBid now bid).1 = none)
    (hge : Float64.ge other.Amount bid.Amount = true) : (a.TryBid now other).1 = none := by
  rw [Auction.TryBid_fst] at hacc ⊢
  obtain ⟨hnow, hres, hwin⟩ := Auction.validateBid_none a now bid hacc
  have h1 := (Float64.ge_iff _ _).mp hge
  have h2 := (Float64.ge_iff _ _).mp hres
  have hres2 : Float64.ge other.Amount a.Item.ReservePrice = true :=
    (Float64.ge_iff _ _).mpr ⟨h1.1, h2.2.1, Int.le_trans h2.2.2 h1.2.2⟩
  rw [Auction.validateBid_ongoing a now other hnow hres2]
  cases hc : a.CurrentWinner with
  | none => rfl
  | some v =>
    have h3 := (Float64.lt_iff _ _).mp (hwin v hc)
    have hl : Float64.lt v.Amount other.Amount = true :=
      (Float64.lt_iff _ _).mpr ⟨h3.1, h1.1, Int.lt_of_lt_of_le h3.2.2 h1.2.2⟩
    simp [hl]

/-- C19: for every auction and instant now, if TryBid accepts a bid of amount a
then it accepts every bid whose amount is greater than or equal to a; and if
it rejects a bid of amount a with ErrBidAmountBelowStartingBid or
ErrBidAmountBelowCurrentBid then it rejects every bid of a smaller amount. -/
theorem c19_acceptance_monotone (a : Auction) (now : Time) (bid other : Bid) :
    ((a.TryBid now bid).1 = none → Float64.ge other.Amount bid.Amount = true →
        (a.TryBid now other).1 = none) ∧
      (((a.TryBid now bid).1 = some BiddingError.ErrBidAmountBelowStartingBid ∨
          (a.TryBid now bid).1 = some BiddingError.ErrBidAmountBelowCurrentBid) →
        Float64.lt other.Amount bid.Amount = true → (a.TryBid now other).1 ≠ none) := by
  refine ⟨Auction.TryBid_accepts_higher a now bid other, ?_⟩
  intro hrej hlt hacc
  have h := (Float64.lt_iff _ _).mp hlt
  have hge : Float64.ge bid.Amount other.Amount = true :=
    (Float64.ge_iff _ _).mpr ⟨h.2.1, h.1, le_of_lt h.2.2⟩
  have hbid := Auction.TryBid_accepts_higher a now other bid hacc hge
  rw [hbid] at hrej
  rcases hrej with hrej | hrej <;> cases hrej

/-- C19 on the test: with the bid of 10.0 as winner, the bid of 100.0 is
accepted and so is a bid of the same amount by another bidder; the bid of 7.0
is rejected with ErrBidAmountBelowCurrentBid and so is the smaller bid of
2.0. -/
theorem c19_acceptance_monotone_witness :
    (auctionA.TryBid 2000 bid100).1 = none ∧
      Float64.ge bidEarly100.Amount bid100.Amount = true ∧
      (auctionA.TryBid 2000 bidEarly100).1 = none ∧
      (auctionA.TryBid 2000 bid7).1 = some BiddingError.ErrBidAmountBelowCurrentBid ∧
      Float64.lt bid2.Amount bid7.Amount = true ∧
      (auctionA.TryBid 2000 bid2).1 ≠ none :=
  ⟨by decide, by decide,
    (c19_acceptance_monotone auctionA 2000 bid100 bidEarly100).1 (by decide) (by decide),
    by decide, by decide,
    (c19_acceptance_monotone auctionA 2000 bid7 bid2).2 (Or.inr (by decide)) (by decide)⟩

/-! ## C16: concurrent calls under the mutex -/

@[simp] theorem System.advance_goroutines_same (s : System) (g : Nat) (x : Access)
    (t : Goroutine) : (s.advance g x t).goroutines g = some t := by
  simp [System.advance]

@[simp] theorem System.advance_goroutines_ne (s : System) (g h : Nat) (x : Access)
    (t : Goroutine) (hne : h ≠ g) : (s.advance g x t).goroutines h = s.goroutines h := by
  simp [System.advance, Function.update_noteq hne]

@[simp] theorem System.advance_auction (s : System) (g : Nat) (x : Access) (t : Goroutine) :
    (s.advance g x t).auction = s.auction := rfl

@[simp] theorem System.advance_mu (s : System) (g : Nat) (x : Access) (t : Goroutine) :
    (s.advance g x t).mu = s.mu := rfl

@[simp] theorem System.advance_log (s : System) (g : Nat) (x : Access) (t : Goroutine) :
    (s.advance g x t).log = s.log := rfl

/-- A goroutine inside TryBid holds the lock for writing. -/
theorem Serialized.writer_of_inside {a : Auction} {s : System} (hs : Serialized a s)
    {g : Nat} {now : Time} {bid : Bid} {pc : TryBidAt}
    (hg : s.goroutines g = some (Goroutine.tryBid now bid pc)) (hin : pc.inside = true) :
    s.mu.writer = some g :=
  (hs.writer_iff g).mpr ⟨_, hg, by simpa [Goroutine.holdsLock] using hin⟩

/-- A step of a goroutine that stays inside the critical section of TryBid and
leaves the mutex and the log alone keeps the invariant, when what is known of
the auction at the new point follows from what was known at the old one. -/
theorem Serialized.inside_step {a : Auction} {s : System} (hs : Serialized a s)
    {g : Nat} {now : Time} {bid : Bid} {pc next : TryBidAt} (x : Access) (cur : Auction)
    (hg : s.goroutines g = some (Goroutine.tryBid now bid pc))
    (hin : pc.inside = true) (hnext : next.inside = true)
    (hprog : ∀ before, pc.progress before s.auction now bid →
      next.progress before cur now bid) :
    Serialized a
      (System.advance { s with auction := cur } g x (Goroutine.tryBid now bid next)) := by
  have hw := hs.writer_of_inside hg hin
  have hnstart : next ≠ TryBidAt.start := by intro h; rw [h] at hnext; cases hnext
  have hpstart : pc ≠ TryBidAt.start := by intro h; rw [h] at hin; cases hin
  constructor
  · intro h endAt finished
    by_cases hh : h = g
    · subst hh; simp
    · simpa [hh] using hs.noChangeTime h endAt finished
  · intro h
    by_cases hh : h = g
    · subst hh; simp [hw, Goroutine.holdsLock, hnext]
    · simpa [hh] using hs.writer_iff h
  · intro h
    by_cases hh : h = g
    · subst hh
      have := hs.readers_iff h
      simp [hg, Goroutine.holdsRLock] at this
      simp [this, Goroutine.holdsRLock]
    · simpa [hh] using hs.readers_iff h
  · simpa using hs.readers_nodup
  · simpa using hs.exclusive
  · intro h n b
    by_cases hh : h = g
    · subst hh
      have := hs.log_iff h n b
      simp [hg] at this
      simp only [System.advance_log, System.advance_goroutines_same]
      rw [this]
      constructor
      · rintro ⟨pc0, ⟨rfl, rfl, rfl⟩, _⟩
        exact ⟨next, rfl, hnstart⟩
      · rintro ⟨pc0, h0, _⟩
        simp only [Option.some.injEq, Goroutine.tryBid.injEq] at h0
        obtain ⟨rfl, rfl, _⟩ := h0
        exact ⟨pc, ⟨rfl, rfl, rfl⟩, hpstart⟩
    · simpa [hh] using hs.log_iff h n b
  · simpa using hs.log_nodup
  · intro hnone
    simp [hw] at hnone
  · intro h n b p hh1 hh2
    by_cases hh : h = g
    · subst hh
      simp only [System.advance_goroutines_same, Option.some.injEq,
        Goroutine.tryBid.injEq] at hh1
      obtain ⟨rfl, rfl, rfl⟩ := hh1
      obtain ⟨before, hlog, hp⟩ := hs.inProgress h now bid pc hg hin
      exact ⟨before, hlog, hprog _ hp⟩
    · simp only [System.advance_goroutines_ne _ _ _ _ _ hh] at hh1
      have := hs.writer_of_inside hh1 hh2
      rw [hw] at this
      exact absurd (Option.some.inj this).symm hh
  · intro h n b err hh1
    by_cases hh : h = g
    · subst hh
      simp only [System.advance_goroutines_same, Option.some.injEq,
        Goroutine.tryBid.injEq] at hh1
      obtain ⟨_, _, rfl⟩ := hh1
      cases hnext
    · simp only [System.advance_goroutines_ne _ _ _ _ _ hh] at hh1
      exact hs.returned h n b err hh1
  · intro h v hh1
    by_cases hh : h = g
    · subst hh; simp at hh1
    · simp only [System.advance_goroutines_ne _ _ _ _ _ hh] at hh1
      exact hs.winnerRead h v hh1
  · intro h v hh1
    by_cases hh : h = g
    · subst hh; simp at hh1
    · simp only [System.advance_goroutines_ne _ _ _ _ _ hh] at hh1
      exact hs.historyRead h v hh1

theorem MutexState.access_lock {m next : MutexState} {g : Nat}
    (h : m.access g Access.lock = some next) :
    m.writer = none ∧ m.readers = [] ∧ next = { writer := some g, readers := [] } := by
  unfold MutexState.access at h
  by_cases hc : (m.writer.isNone && m.readers.isEmpty) = true
  · rw [if_pos hc] at h
    simp only [Bool.and_eq_true, Option.isNone_iff_eq_none, List.isEmpty_iff] at hc
    obtain ⟨hw, hr⟩ := hc
    refine ⟨hw, hr, ?_⟩
    rw [← Option.some.inj h, hr]
  · rw [if_neg hc] at h
    cases h

theorem MutexState.access_unlock {m next : MutexState} {g : Nat}
    (h : m.access g Access.unlock = some next) :
    m.writer = some g ∧ next = { writer := none, readers := m.readers } := by
  unfold MutexState.access at h
  by_cases hc : m.writer = some g
  · rw [if_pos hc] at h
    exact ⟨hc, (Option.some.inj h).symm⟩
  · rw [if_neg hc] at h
    cases h

theorem MutexState.access_rlock {m next : MutexState} {g : Nat}
    (h : m.access g Access.rlock = some next) :
    m.writer = none ∧ next = { writer := none, readers := g :: m.readers } := by
  unfold MutexState.access at h
  by_cases hc : m.writer.isNone = true
  · rw [if_pos hc] at h
    have hw : m.writer = none := Option.isNone_iff_eq_none.mp hc
    refine ⟨hw, ?_⟩
    rw [← Option.some.inj h, hw]
  · rw [if_neg hc] at h
    cases h

theorem MutexState.access_runlock {m next : MutexState} {g : Nat}
    (h : m.access g Access.runlock = some next) :
    g ∈ m.readers ∧ next = { writer := m.writer, readers := m.readers.erase g } := by
  unfold MutexState.access at h
  by_cases hc : m.readers.contains g = true
  · rw [if_pos hc] at h
    exact ⟨by simpa using hc, (Option.some.inj h).symm⟩
  · rw [if_neg hc] at h
    cases h

/-- One more call in the log is one more whole TryBid. -/
theorem serialized_append (a : Auction) (log : List (Nat × Time × Bid)) (g : Nat)
    (now : Time) (bid : Bid) :
    serialized a (log ++ [(g, now, bid)]) = ((serialized a log).TryBid now bid).2 := by
  simp [serialized, Auction.submit, Auction.run, List.foldl_append, Auction.step]

/-- Taking the lock keeps the invariant. -/
theorem Serialized.lock_step {a : Auction} {s : System} (hs : Serialized a s)
    {g : Nat} {now : Time} {bid : Bid} {m : MutexState}
    (hg : s.goroutines g = some (Goroutine.tryBid now bid TryBidAt.start))
    (hm : s.mu.access g Access.lock = some m) :
    Serialized a
      (System.advance { s with mu := m, log := s.log ++ [(g, now, bid)] } g Access.lock
        (Goroutine.tryBid now bid TryBidAt.locked)) := by
  obtain ⟨hw, hr, rfl⟩ := MutexState.access_lock hm
  have hnolock : ∀ h t, s.goroutines h = some t → t.holdsLock = true → False := by
    intro h t h1 h2
    have := (hs.writer_iff h).mpr ⟨t, h1, h2⟩
    rw [hw] at this
    cases this
  have hgnot : ∀ n b, (g, n, b) ∉ s.log := by
    intro n b hmem
    obtain ⟨pc, h1, h2⟩ := (hs.log_iff g n b).mp hmem
    rw [hg] at h1
    simp only [Option.some.injEq, Goroutine.tryBid.injEq] at h1
    exact h2 h1.2.2.symm
  constructor
  · intro h endAt finished
    by_cases hh : h = g
    · subst hh; simp
    · simpa [hh] using hs.noChangeTime h endAt finished
  · intro h
    by_cases hh : h = g
    · subst hh; simp [Goroutine.holdsLock, TryBidAt.inside]
    · simp only [System.advance_mu, System.advance_goroutines_ne _ _ _ _ _ hh]
      constructor
      · intro h1
        exact absurd (Option.some.inj h1).symm hh
      · rintro ⟨t, h1, h2⟩
        exact (hnolock h t h1 h2).elim
  · intro h
    by_cases hh : h = g
    · subst hh; simp [Goroutine.holdsRLock]
    · have := hs.readers_iff h
      rw [hr] at this
      simpa [hh] using this
  · simp
  · simp
  · intro h n b
    by_cases hh : h = g
    · subst hh
      simp only [System.advance_log, System.advance_goroutines_same, List.mem_append,
        List.mem_singleton, Prod.mk.injEq, true_and]
      constructor
      · rintro (h1 | ⟨rfl, rfl⟩)
        · exact (hgnot n b h1).elim
        · exact ⟨TryBidAt.locked, rfl, by simp⟩
      · rintro ⟨pc, h1, _⟩
        simp only [Option.some.injEq, Goroutine.tryBid.injEq] at h1
        exact Or.inr ⟨h1.1.symm, h1.2.1.symm⟩
    · simp only [System.advance_log, System.advance_goroutines_ne _ _ _ _ _ hh,
        List.mem_append, List.mem_singleton, Prod.mk.injEq, hh, false_and, or_false]
      exact hs.log_iff h n b
  · simp only [System.advance_log, List.map_append, List.map_cons, List.map_nil]
    refine List.Nodup.append hs.log_nodup (List.nodup_singleton g) ?_
    intro x hx hx2
    rw [List.mem_singleton] at hx2
    subst hx2
    obtain ⟨⟨g2, n, b⟩, hmem, rfl⟩ := List.mem_map.mp hx
    exact hgnot n b hmem
  · intro hnone
    simp at hnone
  · intro h n b p hh1 hh2
    by_cases hh : h = g
    · subst hh
      simp only [System.advance_goroutines_same, Option.some.injEq,
        Goroutine.tryBid.injEq] at hh1
      obtain ⟨rfl, rfl, rfl⟩ := hh1
      exact ⟨s.log, rfl, hs.whole hw⟩
    · simp only [System.advance_goroutines_ne _ _ _ _ _ hh] at hh1
      exact (hnolock h _ hh1 (by simpa [Goroutine.holdsLock] using hh2)).elim
  · intro h n b err hh1
    by_cases hh : h = g
    · subst hh; simp at hh1
    · simp only [System.advance_goroutines_ne _ _ _ _ _ hh] at hh1
      obtain ⟨before, rest, h1, h2⟩ := hs.returned h n b err hh1
      exact ⟨before, rest ++ [(g, now, bid)], by simp [h1], h2⟩
  · intro h v hh1
    by_cases hh : h = g
    · subst hh; simp at hh1
    · simp only [System.advance_goroutines_ne _ _ _ _ _ hh] at hh1
      obtain ⟨k, hk, hv⟩ := hs.winnerRead h v hh1
      refine ⟨k, by simp; omega, ?_⟩
      simp only [System.advance_log]
      rw [List.take_append_of_le_length hk]
      exact hv
  · intro h v hh1
    by_cases hh : h = g
    · subst hh; simp at hh1
    · simp only [System.advance_goroutines_ne _ _ _ _ _ hh] at hh1
      obtain ⟨k, hk, hv⟩ := hs.historyRead h v hh1
      refine ⟨k, by simp; omega, ?_⟩
      simp only [System.advance_log]
      rw [List.take_append_of_le_length hk]
      exact hv

/-- Releasing the lock keeps the invariant: the call is now applied whole. -/
theorem Serialized.unlock_step {a : Auction} {s : System} (hs : Serialized a s)
    {g : Nat} {now : Time} {bid : Bid} {err : Option BiddingError} {m : MutexState}
    (hg : s.goroutines g = some (Goroutine.tryBid now bid (TryBidAt.leaving err)))
    (hm : s.mu.access g Access.unlock = some m) :
    Serialized a
      (System.advance { s with mu := m } g Access.unlock
        (Goroutine.tryBid now bid (TryBidAt.returned err))) := by
  obtain ⟨hw, rfl⟩ := MutexState.access_unlock hm
  obtain ⟨before, hlog, hprog⟩ := hs.inProgress g now bid _ hg rfl
  simp only [TryBidAt.progress] at hprog
  have hothers : ∀ h t, h ≠ g → s.goroutines h = some t → t.holdsLock = true → False := by
    intro h t hne h1 h2
    have := (hs.writer_iff h).mpr ⟨t, h1, h2⟩
    rw [hw] at this
    exact hne (Option.some.inj this).symm
  constructor
  · intro h endAt finished
    by_cases hh : h = g
    · subst hh; simp
    · simpa [hh] using hs.noChangeTime h endAt finished
  · intro h
    by_cases hh : h = g
    · subst hh; simp [Goroutine.holdsLock, TryBidAt.inside]
    · simp only [System.advance_mu, System.advance_goroutines_ne _ _ _ _ _ hh]
      constructor
      · intro h1; cases h1
      · rintro ⟨t, h1, h2⟩
        exact (hothers h t hh h1 h2).elim
  · intro h
    by_cases hh : h = g
    · subst hh
      have := hs.readers_iff h
      simp [hg, Goroutine.holdsRLock] at this
      simp [this, Goroutine.holdsRLock]
    · simpa [hh] using hs.readers_iff h
  · simpa using hs.readers_nodup
  · intro hne
    simp at hne
  · intro h n b
    by_cases hh : h = g
    · subst hh
      have := hs.log_iff h n b
      simp [hg] at this
      simp only [System.advance_log, System.advance_goroutines_same]
      rw [this]
      constructor
      · rintro ⟨pc0, ⟨rfl, rfl, rfl⟩, _⟩
        exact ⟨_, rfl, by simp⟩
      · rintro ⟨pc0, h0, _⟩
        simp only [Option.some.injEq, Goroutine.tryBid.injEq] at h0
        obtain ⟨rfl, rfl, _⟩ := h0
        exact ⟨_, ⟨rfl, rfl, rfl⟩, by simp⟩
    · simpa [hh] using hs.log_iff h n b
  · simpa using hs.log_nodup
  · intro _
    simp only [System.advance_auction, System.advance_log]
    rw [hlog, serialized_append, hprog]
  · intro h n b p hh1 hh2
    by_cases hh : h = g
    · subst hh
      simp only [System.advance_goroutines_same, Option.some.injEq,
        Goroutine.tryBid.injEq] at hh1
      obtain ⟨_, _, rfl⟩ := hh1
      cases hh2
    · simp only [System.advance_goroutines_ne _ _ _ _ _ hh] at hh1
      exact (hothers h _ hh hh1 (by simpa [Goroutine.holdsLock] using hh2)).elim
  · intro h n b e hh1
    by_cases hh : h = g
    · subst hh
      simp only [System.advance_goroutines_same, Option.some.injEq,
        Goroutine.tryBid.injEq, TryBidAt.returned.injEq] at hh1
      obtain ⟨rfl, rfl, rfl⟩ := hh1
      refine ⟨before, [], hlog, ?_⟩
      rw [serialized_append, hprog]
    · simp only [System.advance_goroutines_ne _ _ _ _ _ hh] at hh1
      exact hs.returned h n b e hh1
  · intro h v hh1
    by_cases hh : h = g
    · subst hh; simp at hh1
    · simp only [System.advance_goroutines_ne _ _ _ _ _ hh] at hh1
      exact hs.winnerRead h v hh1
  · intro h v hh1
    by_cases hh : h = g
    · subst hh; simp at hh1
    · simp only [System.advance_goroutines_ne _ _ _ _ _ hh] at hh1
      exact hs.historyRead h v hh1

theorem Goroutine.tryBid_of_holdsLock {t : Goroutine} (h : t.holdsLock = true) :
    ∃ now bid pc, t = Goroutine.tryBid now bid pc := by
  cases t with
  | tryBid now bid pc => exact ⟨now, bid, pc, rfl⟩
  | changeTime endAt finished => cases h
  | getWinner pc => cases h
  | getBidHistory pc => cases h

/-- A step of a goroutine that runs GetWinner or GetBidHistory keeps the
invariant, when the mutex afterwards holds for reading whom it should and the
value read, if any, is that of an auction with whole calls applied. -/
theorem Serialized.reader_step {a : Auction} {s : System} (hs : Serialized a s)
    {g : Nat} {t next : Goroutine} (x : Access) (m : MutexState)
    (hg : s.goroutines g = some t)
    (ht : ∀ now bid pc, t ≠ Goroutine.tryBid now bid pc)
    (hnext : ∀ now bid pc, next ≠ Goroutine.tryBid now bid pc)
    (hnext2 : ∀ endAt finished, next ≠ Goroutine.changeTime endAt finished)
    (hwriter : m.writer = s.mu.writer)
    (hreaders : ∀ h, h ∈ m.readers ↔
      (h = g ∧ next.holdsRLock = true) ∨ (h ≠ g ∧ h ∈ s.mu.readers))
    (hnodup : m.readers.Nodup)
    (hexcl : m.writer ≠ none → m.readers = [])
    (hwinner : ∀ v, (next = Goroutine.getWinner (ReaderAt.read v) ∨
        next = Goroutine.getWinner (ReaderAt.returned v)) →
      ∃ k, k ≤ s.log.length ∧ v = (serialized a (s.log.take k)).GetWinner)
    (hhistory : ∀ v, (next = Goroutine.getBidHistory (ReaderAt.read v) ∨
        next = Goroutine.getBidHistory (ReaderAt.returned v)) →
      ∃ k, k ≤ s.log.length ∧ v = (serialized a (s.log.take k)).GetBidHistory) :
    Serialized a (System.advance { s with mu := m } g x next) := by
  have hnl : ∀ u : Goroutine, (∀ now bid pc, u ≠ Goroutine.tryBid now bid pc) →
      u.holdsLock = false := by
    intro u hu
    cases hl : u.holdsLock
    · rfl
    · obtain ⟨n, b, p, h⟩ := Goroutine.tryBid_of_holdsLock hl
      exact absurd h (hu n b p)
  constructor
  · intro h endAt finished
    by_cases hh : h = g
    · subst hh
      simp only [System.advance_goroutines_same, ne_eq, Option.some.injEq]
      exact hnext2 endAt finished
    · simpa [hh] using hs.noChangeTime h endAt finished
  · intro h
    by_cases hh : h = g
    · subst hh
      have := hs.writer_iff h
      simp only [hg, Option.some.injEq, exists_eq_left', hnl t ht] at this
      simp [hwriter, this, hnl next hnext]
    · simpa [hh, hwriter] using hs.writer_iff h
  · intro h
    by_cases hh : h = g
    · subst hh
      simp [hreaders]
    · simp only [System.advance_mu, System.advance_goroutines_ne _ _ _ _ _ hh, hreaders, hh,
        false_and, false_or, ne_eq, not_false_eq_true, true_and]
      exact hs.readers_iff h
  · simpa using hnodup
  · simpa using hexcl
  · intro h n b
    by_cases hh : h = g
    · subst hh
      have := hs.log_iff h n b
      simp only [hg, Option.some.injEq] at this
      simp only [System.advance_log, System.advance_goroutines_same, Option.some.injEq]
      rw [this]
      constructor
      · rintro ⟨pc, h1, _⟩
        exact absurd h1 (ht n b pc)
      · rintro ⟨pc, h1, _⟩
        exact absurd h1 (hnext n b pc)
    · simpa [hh] using hs.log_iff h n b
  · simpa using hs.log_nodup
  · intro hnone
    simp only [System.advance_mu, hwriter] at hnone
    simpa using hs.whole hnone
  · intro h n b p hh1 hh2
    by_cases hh : h = g
    · subst hh
      simp only [System.advance_goroutines_same, Option.some.injEq] at hh1
      exact absurd hh1 (hnext n b p)
    · simp only [System.advance_goroutines_ne _ _ _ _ _ hh] at hh1
      simpa using hs.inProgress h n b p hh1 hh2
  · intro h n b err hh1
    by_cases hh : h = g
    · subst hh
      simp only [System.advance_goroutines_same, Option.some.injEq] at hh1
      exact absurd hh1 (hnext n b _)
    · simp only [System.advance_goroutines_ne _ _ _ _ _ hh] at hh1
      simpa using hs.returned h n b err hh1
  · intro h v hh1
    by_cases hh : h = g
    · subst hh
      simp only [System.advance_goroutines_same, Option.some.injEq] at hh1
      simpa using hwinner v hh1
    · simp only [System.advance_goroutines_ne _ _ _ _ _ hh] at hh1
      simpa using hs.winnerRead h v hh1
  · intro h v hh1
    by_cases hh : h = g
    · subst hh
      simp only [System.advance_goroutines_same, Option.some.injEq] at hh1
      simpa using hhistory v hh1
    · simp only [System.advance_goroutines_ne _ _ _ _ _ hh] at hh1
      simpa using hs.historyRead h v hh1

/-- While a goroutine holds the mutex for reading, every call of the log is
applied whole. -/
theorem Serialized.whole_of_reader {a : Auction} {s : System} (hs : Serialized a s)
    {g : Nat} {t : Goroutine} (hg : s.goroutines g = some t) (ht : t.holdsRLock = true) :
    s.mu.writer = none ∧ s.auction = serialized a s.log := by
  have hmem : g ∈ s.mu.readers := (hs.readers_iff g).mpr ⟨t, hg, ht⟩
  have hw : s.mu.writer = none := by
    by_contra hne
    rw [hs.exclusive hne] at hmem
    cases hmem
  exact ⟨hw, hs.whole hw⟩

/-- `RLock` by a reader keeps the invariant. -/
theorem Serialized.rlock_step {a : Auction} {s : System} (hs : Serialized a s)
    {g : Nat} {t next : Goroutine} {m : MutexState}
    (hg : s.goroutines g = some t)
    (hm : s.mu.access g Access.rlock = some m)
    (hkind : (t = Goroutine.getWinner ReaderAt.start ∧
        next = Goroutine.getWinner ReaderAt.rlocked) ∨
      (t = Goroutine.getBidHistory ReaderAt.start ∧
        next = Goroutine.getBidHistory ReaderAt.rlocked)) :
    Serialized a (System.advance { s with mu := m } g Access.rlock next) := by
  obtain ⟨hw, rfl⟩ := MutexState.access_rlock hm
  have hgnot : g ∉ s.mu.readers := by
    intro hmem
    obtain ⟨u, h1, h2⟩ := (hs.readers_iff g).mp hmem
    rw [hg] at h1
    cases Option.some.inj h1
    rcases hkind with ⟨rfl, _⟩ | ⟨rfl, _⟩ <;> cases h2
  have hr : next.holdsRLock = true := by
    rcases hkind with ⟨_, rfl⟩ | ⟨_, rfl⟩ <;> rfl
  refine hs.reader_step Access.rlock _ hg ?_ ?_ ?_ hw.symm ?_ ?_ ?_ ?_ ?_
  · intro n b p h; rcases hkind with ⟨rfl, _⟩ | ⟨rfl, _⟩ <;> cases h
  · intro n b p h; rcases hkind with ⟨_, rfl⟩ | ⟨_, rfl⟩ <;> cases h
  · intro e f h; rcases hkind with ⟨_, rfl⟩ | ⟨_, rfl⟩ <;> cases h
  · intro h
    simp only [List.mem_cons, hr, and_true]
    constructor
    · rintro (h1 | h1)
      · exact Or.inl h1
      · by_cases hh : h = g
        · exact Or.inl hh
        · exact Or.inr ⟨hh, h1⟩
    · rintro (h1 | ⟨_, h1⟩)
      · exact Or.inl h1
      · exact Or.inr h1
  · exact List.nodup_cons.mpr ⟨hgnot, hs.readers_nodup⟩
  · intro h; exact absurd rfl h
  · intro v h; rcases hkind with ⟨_, rfl⟩ | ⟨_, rfl⟩ <;> rcases h with h | h <;> cases h
  · intro v h; rcases hkind with ⟨_, rfl⟩ | ⟨_, rfl⟩ <;> rcases h with h | h <;> cases h

/-- The read of a reader keeps the invariant: the auction it reads has every
call of the log applied whole. -/
theorem Serialized.read_step {a : Auction} {s : System} (hs : Serialized a s)
    {g : Nat} {t next : Goroutine} (x : Access)
    (hg : s.goroutines g = some t)
    (hkind : (t = Goroutine.getWinner ReaderAt.rlocked ∧
        next = Goroutine.getWinner (ReaderAt.read s.auction.CurrentWinner)) ∨
      (t = Goroutine.getBidHistory ReaderAt.rlocked ∧
        next = Goroutine.getBidHistory (ReaderAt.read s.auction.Bids))) :
    Serialized a (s.advance g x next) := by
  have ht : t.holdsRLock = true := by
    rcases hkind with ⟨rfl, _⟩ | ⟨rfl, _⟩ <;> rfl
  have hr : next.holdsRLock = true := by
    rcases hkind with ⟨_, rfl⟩ | ⟨_, rfl⟩ <;> rfl
  obtain ⟨_, hwhole⟩ := hs.whole_of_reader hg ht
  have hmem : g ∈ s.mu.readers := (hs.readers_iff g).mpr ⟨t, hg, ht⟩
  refine hs.reader_step x s.mu hg ?_ ?_ ?_ rfl ?_ hs.readers_nodup hs.exclusive ?_ ?_
  · intro n b p h; rcases hkind with ⟨rfl, _⟩ | ⟨rfl, _⟩ <;> cases h
  · intro n b p h; rcases hkind with ⟨_, rfl⟩ | ⟨_, rfl⟩ <;> cases h
  · intro e f h; rcases hkind with ⟨_, rfl⟩ | ⟨_, rfl⟩ <;> cases h
  · intro h
    simp only [hr, and_true]
    constructor
    · intro h1
      by_cases hh : h = g
      · exact Or.inl hh
      · exact Or.inr ⟨hh, h1⟩
    · rintro (h1 | ⟨_, h1⟩)
      · rw [h1]; exact hmem
      · exact h1
  · intro v h
    refine ⟨s.log.length, le_refl _, ?_⟩
    rw [List.take_length, ← hwhole]
    rcases hkind with ⟨_, rfl⟩ | ⟨_, rfl⟩ <;> rcases h with h | h <;> cases h
    rfl
  · intro v h
    refine ⟨s.log.length, le_refl _, ?_⟩
    rw [List.take_length, ← hwhole]
    rcases hkind with ⟨_, rfl⟩ | ⟨_, rfl⟩ <;> rcases h with h | h <;> cases h
    rfl

/-- `RUnlock` by a reader keeps the invariant. -/
theorem Serialized.runlock_step {a : Auction} {s : System} (hs : Serialized a s)
    {g : Nat} {t next : Goroutine} {m : MutexState}
    (hg : s.goroutines g = some t)
    (hm : s.mu.access g Access.runlock = some m)
    (hkind : (∃ v, t = Goroutine.getWinner (ReaderAt.read v) ∧
        next = Goroutine.getWinner (ReaderAt.returned v)) ∨
      (∃ v, t = Goroutine.getBidHistory (ReaderAt.read v) ∧
        next = Goroutine.getBidHistory (ReaderAt.returned v))) :
    Serialized a (System.advance { s with mu := m } g Access.runlock next) := by
  obtain ⟨hmem, rfl⟩ := MutexState.access_runlock hm
  have hr : next.holdsRLock = false := by
    rcases hkind with ⟨v, _, rfl⟩ | ⟨v, _, rfl⟩ <;> rfl
  refine hs.reader_step Access.runlock _ hg ?_ ?_ ?_ rfl ?_ ?_ ?_ ?_ ?_
  · intro n b p h; rcases hkind with ⟨v, rfl, _⟩ | ⟨v, rfl, _⟩ <;> cases h
  · intro n b p h; rcases hkind with ⟨v, _, rfl⟩ | ⟨v, _, rfl⟩ <;> cases h
  · intro e f h; rcases hkind with ⟨v, _, rfl⟩ | ⟨v, _, rfl⟩ <;> cases h
  · intro h
    simp only [hr, Bool.false_eq_true, and_false, false_or]
    exact hs.readers_nodup.mem_erase_iff
  · exact hs.readers_nodup.erase g
  · intro hne
    simp only at hne
    simp [hs.exclusive hne]
  · intro v h
    rcases hkind with ⟨w, rfl, rfl⟩ | ⟨w, rfl, rfl⟩
    · rcases h with h | h
      · cases h
      · cases h
        exact hs.winnerRead g v (Or.inl hg)
    · rcases h with h | h <;> cases h
  · intro v h
    rcases hkind with ⟨w, rfl, rfl⟩ | ⟨w, rfl, rfl⟩
    · rcases h with h | h <;> cases h
    · rcases h with h | h
      · cases h
      · cases h
        exact hs.historyRead g v (Or.inl hg)

/-- Every access that a goroutine can make keeps the invariant. -/
theorem Serialized.step_kept {a : Auction} {s next : System} (hs : Serialized a s) (g : Nat)
    (hstep : s.step g = some next) : Serialized a next := by
  unfold System.step at hstep
  cases hg : s.goroutines g with
  | none => simp [hg] at hstep
  | some t =>
    rw [hg] at hstep
    cases t with
    | changeTime endAt finished => exact absurd hg (hs.noChangeTime g endAt finished)
    | tryBid now bid pc =>
      cases pc with
      | start =>
        cases hm : s.mu.access g Access.lock with
        | none => simp [hm] at hstep
        | some m =>
          simp only [hm, Option.some.injEq] at hstep
          subst hstep
          exact hs.lock_step hg hm
      | locked =>
        simp only [Option.some.injEq] at hstep
        subst hstep
        by_cases hc : s.auction.Item.AuctionOngoing now = true
        · rw [if_pos hc]
          refine hs.inside_step Access.readEndAt s.auction hg rfl rfl ?_
          intro before hp
          simp only [TryBidAt.progress] at hp ⊢
          subst hp
          exact ⟨rfl, hc⟩
        · rw [if_neg hc]
          refine hs.inside_step Access.readEndAt s.auction hg rfl rfl ?_
          intro before hp
          simp only [TryBidAt.progress] at hp ⊢
          subst hp
          exact Auction.TryBid_some _ now bid _
            (Auction.validateBid_over _ now bid (by simpa [Item.AuctionOngoing] using hc))
      | ongoing =>
        simp only [Option.some.injEq] at hstep
        subst hstep
        by_cases hc : s.auction.Item.ReservePriceMet bid.Amount = true
        · rw [if_pos hc]
          refine hs.inside_step Access.readReservePrice s.auction hg rfl rfl ?_
          intro before hp
          simp only [TryBidAt.progress] at hp ⊢
          obtain ⟨hp, ho⟩ := hp
          subst hp
          exact ⟨rfl, ho, hc⟩
        · rw [if_neg hc]
          refine hs.inside_step Access.readReservePrice s.auction hg rfl rfl ?_
          intro before hp
          simp only [TryBidAt.progress] at hp ⊢
          obtain ⟨hp, ho⟩ := hp
          subst hp
          apply Auction.TryBid_some
          simp [Auction.validateBid, ho, hc]
      | reserveMet =>
        simp only [Option.some.injEq] at hstep
        subst hstep
        cases hw : s.auction.CurrentWinner with
        | none =>
          refine hs.inside_step Access.readCurrentWinner s.auction hg rfl rfl ?_
          intro before hp
          simp only [TryBidAt.progress] at hp ⊢
          obtain ⟨hp, ho, hr⟩ := hp
          subst hp
          exact ⟨rfl, by simp [Auction.validateBid, ho, hr, hw]⟩
        | some w =>
          refine hs.inside_step Access.readCurrentWinner s.auction hg rfl rfl ?_
          intro before hp
          simp only [TryBidAt.progress] at hp ⊢
          obtain ⟨hp, ho, hr⟩ := hp
          subst hp
          exact ⟨rfl, ho, hr, by simp [hw]⟩
      | winnerNotNil =>
        cases hw : s.auction.CurrentWinner with
        | none => simp [hw] at hstep
        | some w =>
          simp only [hw, Option.some.injEq] at hstep
          subst hstep
          by_cases hc : currentBidIsLessThan w bid.Amount = true
          · rw [if_pos hc]
            refine hs.inside_step Access.readCurrentWinner s.auction hg rfl rfl ?_
            intro before hp
            simp only [TryBidAt.progress] at hp ⊢
            obtain ⟨hp, ho, hr, _⟩ := hp
            subst hp
            exact ⟨rfl, by simp [Auction.validateBid, ho, hr, hw, hc]⟩
          · rw [if_neg hc]
            refine hs.inside_step Access.readCurrentWinner s.auction hg rfl rfl ?_
            intro before hp
            simp only [TryBidAt.progress] at hp ⊢
            obtain ⟨hp, ho, hr, _⟩ := hp
            subst hp
            apply Auction.TryBid_some
            simp [Auction.validateBid, ho, hr, hw, hc]
      | valid =>
        simp only [Option.some.injEq] at hstep
        subst hstep
        refine hs.inside_step Access.writeCurrentWinner _ hg rfl rfl ?_
        intro before hp
        simp only [TryBidAt.progress] at hp ⊢
        obtain ⟨hp, hv⟩ := hp
        subst hp
        exact ⟨rfl, hv⟩
      | winnerSet =>
        simp only [Option.some.injEq] at hstep
        subst hstep
        refine hs.inside_step Access.readBids s.auction hg rfl rfl ?_
        intro before hp
        simp only [TryBidAt.progress] at hp ⊢
        obtain ⟨hp, hv⟩ := hp
        exact ⟨hp, hv, by rw [hp]; rfl⟩
      | bidsRead old =>
        simp only [Option.some.injEq] at hstep
        subst hstep
        refine hs.inside_step Access.writeBids _ hg rfl rfl ?_
        intro before hp
        simp only [TryBidAt.progress] at hp ⊢
        obtain ⟨hp, hv, hold⟩ := hp
        rw [Auction.TryBid_none before now bid hv, hp, hold]
        rfl
      | leaving err =>
        cases hm : s.mu.access g Access.unlock with
        | none => simp [hm] at hstep
        | some m =>
          simp only [hm, Option.some.injEq] at hstep
          subst hstep
          exact hs.unlock_step hg hm
      | returned err => simp at hstep
    | getWinner pc =>
      cases pc with
      | start =>
        cases hm : s.mu.access g Access.rlock with
        | none => simp [hm] at hstep
        | some m =>
          simp only [hm, Option.some.injEq] at hstep
          subst hstep
          exact hs.rlock_step hg hm (Or.inl ⟨rfl, rfl⟩)
      | rlocked =>
        simp only [Option.some.injEq] at hstep
        subst hstep
        exact hs.read_step Access.readCurrentWinner hg (Or.inl ⟨rfl, rfl⟩)
      | read v =>
        cases hm : s.mu.access g Access.runlock with
        | none => simp [hm] at hstep
        | some m =>
          simp only [hm, Option.some.injEq] at hstep
          subst hstep
          exact hs.runlock_step hg hm (Or.inl ⟨v, rfl, rfl⟩)
      | returned v => simp at hstep
    | getBidHistory pc =>
      cases pc with
      | start =>
        cases hm : s.mu.access g Access.rlock with
        | none => simp [hm] at hstep
        | some m =>
          simp only [hm, Option.some.injEq] at hstep
          subst hstep
          exact hs.rlock_step hg hm (Or.inr ⟨rfl, rfl⟩)
      | rlocked =>
        simp only [Option.some.injEq] at hstep
        subst hstep
        exact hs.read_step Access.readBids hg (Or.inr ⟨rfl, rfl⟩)
      | read v =>
        cases hm : s.mu.access g Access.runlock with
        | none => simp [hm] at hstep
        | some m =>
          simp only [hm, Option.some.injEq] at hstep
          subst hstep
          exact hs.runlock_step hg hm (Or.inr ⟨v, rfl, rfl⟩)
      | returned v => simp at hstep

/-- Every schedule that can be run keeps the invariant. -/
theorem Serialized.exec_kept {a : Auction} (schedule : List Nat) :
    ∀ {s final : System}, Serialized a s → s.exec schedule = some final →
      Serialized a final := by
  induction schedule with
  | nil =>
    intro s final hs h
    simp only [System.exec, Option.some.injEq] at h
    rw [← h]
    exact hs
  | cons g rest ih =>
    intro s final hs h
    unfold System.exec at h
    cases hstep : s.step g with
    | none => simp [hstep] at h
    | some next =>
      simp only [hstep] at h
      exact ih (hs.step_kept g hstep) h

theorem Goroutine.start_holdsLock (c : Time × Call) : (Goroutine.start c).holdsLock = false := by
  obtain ⟨t, c⟩ := c
  cases c <;> rfl

theorem Goroutine.start_holdsRLock (c : Time × Call) :
    (Goroutine.start c).holdsRLock = false := by
  obtain ⟨t, c⟩ := c
  cases c <;> rfl

theorem Goroutine.start_eq_tryBid {c : Time × Call} {now : Time} {bid : Bid} {pc : TryBidAt}
    (h : Goroutine.start c = Goroutine.tryBid now bid pc) :
    c = (now, Call.tryBid bid) ∧ pc = TryBidAt.start := by
  obtain ⟨t, c⟩ := c
  cases c <;> simp [Goroutine.start] at h
  obtain ⟨rfl, rfl, rfl⟩ := h
  exact ⟨rfl, rfl⟩

/-- The invariant holds at the start of calls that all take the mutex. -/
theorem Serialized.at_start (a : Auction) (calls : List (Time × Call))
    (hcalls : (calls.all fun c => c.2.takesMutex) = true) :
    Serialized a (System.init a calls) := by
  have hstart : ∀ h t, (System.init a calls).goroutines h = some t →
      ∃ c, c ∈ calls ∧ t = Goroutine.start c := by
    intro h t ht
    simp only [System.init, Option.map_eq_some'] at ht
    obtain ⟨c, hc, rfl⟩ := ht
    exact ⟨c, List.get?_mem hc, rfl⟩
  constructor
  · intro h endAt finished hh
    obtain ⟨c, hc, hc2⟩ := hstart h _ hh
    have := List.all_eq_true.mp hcalls c hc
    obtain ⟨t, c⟩ := c
    cases c <;> simp [Goroutine.start, Call.takesMutex] at hc2 this
  · intro h
    constructor
    · intro h1; cases h1
    · rintro ⟨t, h1, h2⟩
      obtain ⟨c, _, rfl⟩ := hstart h t h1
      rw [Goroutine.start_holdsLock] at h2
      cases h2
  · intro h
    constructor
    · intro h1; cases h1
    · rintro ⟨t, h1, h2⟩
      obtain ⟨c, _, rfl⟩ := hstart h t h1
      rw [Goroutine.start_holdsRLock] at h2
      cases h2
  · exact List.nodup_nil
  · intro _; rfl
  · intro h n b
    constructor
    · intro h1; cases h1
    · rintro ⟨pc, h1, h2⟩
      obtain ⟨c, _, hc⟩ := hstart h _ h1
      exact absurd (Goroutine.start_eq_tryBid hc.symm).2 h2
  · exact List.nodup_nil
  · intro _; rfl
  · intro h n b pc h1 h2
    obtain ⟨c, _, hc⟩ := hstart h _ h1
    rw [(Goroutine.start_eq_tryBid hc.symm).2] at h2
    cases h2
  · intro h n b err h1
    obtain ⟨c, _, hc⟩ := hstart h _ h1
    cases (Goroutine.start_eq_tryBid hc.symm).2
  · intro h v h1
    rcases h1 with h1 | h1 <;>
    · obtain ⟨⟨t, c⟩, _, hc⟩ := hstart h _ h1
      cases c <;> simp [Goroutine.start] at hc
  · intro h v h1
    rcases h1 with h1 | h1 <;>
    · obtain ⟨⟨t, c⟩, _, hc⟩ := hstart h _ h1
      cases c <;> simp [Goroutine.start] at hc

/-! ### The record of accesses -/

theorem MutexState.after_append (m : MutexState) (tr : List (Nat × Access)) (g : Nat)
    (x : Access) :
    m.after (tr ++ [(g, x)]) = (m.after tr).bind fun next => next.access g x := by
  induction tr generalizing m with
  | nil =>
    simp only [List.nil_append, MutexState.after, Option.some_bind]
    cases m.access g x <;> rfl
  | cons e rest ih =>
    obtain ⟨g2, x2⟩ := e
    simp only [List.cons_append, MutexState.after]
    cases m.access g2 x2 with
    | none => rfl
    | some next => exact ih next

theorem MutexState.allows_eq_after (m : MutexState) (tr : List (Nat × Access)) :
    m.allows tr = (m.after tr).isSome := by
  induction tr generalizing m with
  | nil => rfl
  | cons e rest ih =>
    obtain ⟨g, x⟩ := e
    simp only [MutexState.allows, MutexState.after]
    cases m.access g x with
    | none => rfl
    | some next => exact ih next

theorem accessesOf_append_same (g : Nat) (tr : List (Nat × Access)) (x : Access) :
    accessesOf g (tr ++ [(g, x)]) = accessesOf g tr ++ [x] := by
  simp [accessesOf, List.filter_append]

theorem accessesOf_append_ne {g h : Nat} (hne : h ≠ g) (tr : List (Nat × Access))
    (x : Access) : accessesOf h (tr ++ [(g, x)]) = accessesOf h tr := by
  have : (g == h) = false := by simpa using fun e : g = h => hne e.symm
  simp [accessesOf, List.filter_append, List.filter_cons, this]

/-- In a log that names each goroutine at most once, the calls before the call
of a goroutine are determined. -/
theorem log_split_unique {g : Nat} {e1 e2 : Time × Bid} :
    ∀ {l b1 r1 b2 r2 : List (Nat × Time × Bid)}, (l.map Prod.fst).Nodup →
      l = b1 ++ (g, e1) :: r1 → l = b2 ++ (g, e2) :: r2 → b1 = b2 := by
  intro l b1
  induction b1 generalizing l with
  | nil =>
    intro r1 b2 r2 hn h1 h2
    cases b2 with
    | nil => rfl
    | cons y b2 =>
      exfalso
      rw [h1] at h2 hn
      simp only [List.nil_append, List.cons_append, List.cons.injEq] at h2
      obtain ⟨rfl, h2⟩ := h2
      rw [h2] at hn
      simp at hn
  | cons y b1 ih =>
    intro r1 b2 r2 hn h1 h2
    cases b2 with
    | nil =>
      exfalso
      rw [h2] at h1 hn
      simp only [List.nil_append, List.cons_append, List.cons.injEq] at h1
      obtain ⟨rfl, h1⟩ := h1
      rw [h1] at hn
      simp at hn
    | cons y2 b2 =>
      rw [h1] at h2
      simp only [List.cons_append, List.cons.injEq] at h2
      obtain ⟨rfl, h2⟩ := h2
      rw [h1] at hn
      simp only [List.cons_append, List.map_cons, List.nodup_cons] at hn
      rw [ih hn.2 rfl h2]

theorem Auction.TryBidAccesses_dropLast (a : Auction) (now : Time) (bid : Bid) :
    (a.TryBidAccesses now bid).dropLast =
      [Access.lock] ++ a.validateBidAccesses now bid ++
        (if (a.validateBid now bid).isNone then
          [Access.writeCurrentWinner, Access.readBids, Access.writeBids]
        else []) := by
  unfold Auction.TryBidAccesses
  rw [List.dropLast_concat]

/-- One access keeps the record of accesses right, when the accesses of the
goroutine that made it are those of its method up to its new point. -/
theorem Traced.advance {a : Auction} {s : System} (hs : Serialized a s) (ht : Traced a s)
    {g : Nat} {t next : Goroutine} (x : Access) (cur : Auction) (m : MutexState)
    (log : List (Nat × Time × Bid))
    (hg : s.goroutines g = some t)
    (hnew : Serialized a
      (System.advance { s with auction := cur, mu := m, log := log } g x next))
    (hm : s.mu.access g x = some m)
    (hlog : ∃ suffix, log = s.log ++ suffix)
    (hdone : ∀ before,
      (∀ now bid pc, next = Goroutine.tryBid now bid pc → pc ≠ TryBidAt.start →
        ∃ rest, log = before ++ (g, now, bid) :: rest) →
      accessesOf g s.trace ++ [x] = next.done (serialized a before)) :
    Traced a (System.advance { s with auction := cur, mu := m, log := log } g x next) := by
  constructor
  · simp only [System.advance]
    rw [MutexState.after_append, ht.mutex]
    exact hm
  · intro h t0 before hh hsplit
    by_cases hhg : h = g
    · subst hhg
      simp only [System.advance_goroutines_same, Option.some.injEq] at hh
      subst hh
      simp only [System.advance, accessesOf_append_same]
      exact hdone before hsplit
    · simp only [System.advance_goroutines_ne _ _ _ _ _ hhg] at hh
      simp only [System.advance, accessesOf_append_ne hhg]
      refine ht.accesses h t0 before hh ?_
      intro now bid pc ht0 hpc
      obtain ⟨rest, hrest⟩ := hsplit now bid pc ht0 hpc
      simp only [System.advance_log] at hrest
      have hmem : (h, now, bid) ∈ s.log := (hs.log_iff h now bid).mpr ⟨pc, by rw [hh, ht0], hpc⟩
      obtain ⟨b0, r0, hb0⟩ := List.append_of_mem hmem
      obtain ⟨suffix, hsuffix⟩ := hlog
      have hnodup := hnew.log_nodup
      simp only [System.advance_log] at hnodup
      have hlog2 : log = b0 ++ (h, now, bid) :: (r0 ++ suffix) := by
        rw [hsuffix, hb0]; simp
      have := log_split_unique hnodup hrest hlog2
      exact ⟨r0, by rw [this]; exact hb0⟩

/-- The accesses of a goroutine that stays inside the critical section of
TryBid, when the access made extends the accesses of its old point to those of
its new point. -/
theorem Traced.inside_done {a : Auction} {s : System} (hs : Serialized a s)
    (ht : Traced a s) {g : Nat} {now : Time} {bid : Bid} {pc next : TryBidAt} (x : Access)
    (hg : s.goroutines g = some (Goroutine.tryBid now bid pc))
    (hin : pc.inside = true)
    (hext : ∀ B, pc.progress B s.auction now bid →
      pc.done B now bid ++ [x] = next.done B now bid) :
    ∀ before,
      (∀ n b p, Goroutine.tryBid now bid next = Goroutine.tryBid n b p → p ≠ TryBidAt.start →
        ∃ rest, s.log = before ++ (g, n, b) :: rest) →
      accessesOf g s.trace ++ [x] = (Goroutine.tryBid now bid next).done (serialized a before) := by
  intro before hsplit
  obtain ⟨b0, hb0, hprog⟩ := hs.inProgress g now bid pc hg hin
  have hpstart : pc ≠ TryBidAt.start := by intro h; rw [h] at hin; cases hin
  by_cases hns : next = TryBidAt.start
  · -- a goroutine inside never goes back to the start
    subst hns
    have := hext _ hprog
    simp [TryBidAt.done] at this
  · obtain ⟨rest, hrest⟩ := hsplit now bid next rfl hns
    have hb : before = b0 := log_split_unique hs.log_nodup hrest hb0
    subst hb
    have hold := ht.accesses g _ before hg (fun n b p h0 _ => by
      simp only [Goroutine.tryBid.injEq] at h0
      obtain ⟨rfl, rfl, _⟩ := h0
      exact ⟨rest, hrest⟩)
    rw [hold]
    exact hext _ hprog

/-- The accesses of a reader after one more access. -/
theorem Traced.reader_done {a : Auction} {s : System} (ht : Traced a s)
    {g : Nat} {t : Goroutine} (next : Goroutine) (x : Access)
    (hg : s.goroutines g = some t)
    (hkind : ∀ now bid pc, t ≠ Goroutine.tryBid now bid pc)
    (hext : ∀ B, t.done B ++ [x] = next.done B) :
    ∀ before : List (Nat × Time × Bid),
      accessesOf g s.trace ++ [x] = next.done (serialized a before) := by
  intro before
  rw [ht.accesses g t before hg (fun n b p h0 _ => absurd h0 (hkind n b p))]
  exact hext _

/-- Every access that a goroutine can make keeps the record of accesses
right. -/
theorem Traced.step_traced {a : Auction} {s next : System} (hs : Serialized a s) (ht : Traced a s)
    (g : Nat) (hstep : s.step g = some next) : Traced a next := by
  have hnew := hs.step_kept g hstep
  unfold System.step at hstep
  cases hg : s.goroutines g with
  | none => simp [hg] at hstep
  | some t =>
    rw [hg] at hstep
    cases t with
    | changeTime endAt finished => exact absurd hg (hs.noChangeTime g endAt finished)
    | tryBid now bid pc =>
      cases pc with
      | start =>
        cases hm : s.mu.access g Access.lock with
        | none => simp [hm] at hstep
        | some m =>
          simp only [hm, Option.some.injEq] at hstep
          subst hstep
          refine Traced.advance hs ht Access.lock s.auction m _ hg hnew hm ⟨_, rfl⟩ ?_
          intro before _
          rw [ht.accesses g _ before hg (fun n b p h0 hp => by
            simp only [Goroutine.tryBid.injEq] at h0
            exact absurd h0.2.2.symm hp)]
          rfl
      | locked =>
        simp only [Option.some.injEq] at hstep
        subst hstep
        refine Traced.advance hs ht Access.readEndAt s.auction s.mu s.log hg hnew rfl
          ⟨[], by simp⟩ ?_
        refine Traced.inside_done hs ht Access.readEndAt hg rfl ?_
        intro B hp
        simp only [TryBidAt.progress] at hp
        subst hp
        by_cases hc : s.auction.Item.AuctionOngoing now = true
        · simp [hc, TryBidAt.done]
        · simp [hc, TryBidAt.done, Auction.TryBidAccesses, Auction.validateBidAccesses,
            Auction.validateBid]
      | ongoing =>
        simp only [Option.some.injEq] at hstep
        subst hstep
        refine Traced.advance hs ht Access.readReservePrice s.auction s.mu s.log hg hnew rfl
          ⟨[], by simp⟩ ?_
        refine Traced.inside_done hs ht Access.readReservePrice hg rfl ?_
        intro B hp
        simp only [TryBidAt.progress] at hp
        obtain ⟨hp, ho⟩ := hp
        subst hp
        by_cases hc : s.auction.Item.ReservePriceMet bid.Amount = true
        · simp [hc, TryBidAt.done]
        · simp [hc, ho, TryBidAt.done, Auction.TryBidAccesses, Auction.validateBidAccesses,
            Auction.validateBid]
      | reserveMet =>
        simp only [Option.some.injEq] at hstep
        subst hstep
        refine Traced.advance hs ht Access.readCurrentWinner s.auction s.mu s.log hg hnew rfl
          ⟨[], by simp⟩ ?_
        refine Traced.inside_done hs ht Access.readCurrentWinner hg rfl ?_
        intro B hp
        simp only [TryBidAt.progress] at hp
        obtain ⟨hp, ho, hr⟩ := hp
        subst hp
        cases hw : s.auction.CurrentWinner with
        | none => simp [hw, ho, hr, TryBidAt.done, Auction.validateBidAccesses]
        | some w => simp [TryBidAt.done]
      | winnerNotNil =>
        cases hw : s.auction.CurrentWinner with
        | none => simp [hw] at hstep
        | some w =>
          simp only [hw, Option.some.injEq] at hstep
          subst hstep
          refine Traced.advance hs ht Access.readCurrentWinner s.auction s.mu s.log hg hnew rfl
            ⟨[], by simp⟩ ?_
          refine Traced.inside_done hs ht Access.readCurrentWinner hg rfl ?_
          intro B hp
          simp only [TryBidAt.progress] at hp
          obtain ⟨hp, ho, hr, _⟩ := hp
          subst hp
          by_cases hc : currentBidIsLessThan w bid.Amount = true
          · simp [hc, hw, ho, hr, TryBidAt.done, Auction.validateBidAccesses]
          · simp [hc, hw, ho, hr, TryBidAt.done, Auction.TryBidAccesses,
              Auction.validateBidAccesses, Auction.validateBid]
      | valid =>
        simp only [Option.some.injEq] at hstep
        subst hstep
        refine Traced.advance hs ht Access.writeCurrentWinner _ s.mu s.log hg hnew rfl
          ⟨[], by simp⟩ ?_
        refine Traced.inside_done hs ht Access.writeCurrentWinner hg rfl ?_
        intro B _
        simp [TryBidAt.done]
      | winnerSet =>
        simp only [Option.some.injEq] at hstep
        subst hstep
        refine Traced.advance hs ht Access.readBids s.auction s.mu s.log hg hnew rfl
          ⟨[], by simp⟩ ?_
        refine Traced.inside_done hs ht Access.readBids hg rfl ?_
        intro B _
        simp [TryBidAt.done]
      | bidsRead old =>
        simp only [Option.some.injEq] at hstep
        subst hstep
        refine Traced.advance hs ht Access.writeBids _ s.mu s.log hg hnew rfl
          ⟨[], by simp⟩ ?_
        refine Traced.inside_done hs ht Access.writeBids hg rfl ?_
        intro B hp
        simp only [TryBidAt.progress] at hp
        simp only [TryBidAt.done, Auction.TryBidAccesses_dropLast, hp.2.1, Option.isNone_none,
          if_true]
        simp
      | leaving err =>
        cases hm : s.mu.access g Access.unlock with
        | none => simp [hm] at hstep
        | some m =>
          simp only [hm, Option.some.injEq] at hstep
          subst hstep
          refine Traced.advance hs ht Access.unlock s.auction m s.log hg hnew hm
            ⟨[], by simp⟩ ?_
          refine Traced.inside_done hs ht Access.unlock hg rfl ?_
          intro B _
          simp only [TryBidAt.done, Auction.TryBidAccesses_dropLast]
          simp [Auction.TryBidAccesses]
      | returned err => simp at hstep
    | getWinner pc =>
      cases pc with
      | start =>
        cases hm : s.mu.access g Access.rlock with
        | none => simp [hm] at hstep
        | some m =>
          simp only [hm, Option.some.injEq] at hstep
          subst hstep
          refine Traced.advance hs ht Access.rlock s.auction m s.log hg hnew hm
            ⟨[], by simp⟩ ?_
          intro before _
          exact Traced.reader_done ht (Goroutine.getWinner ReaderAt.rlocked) Access.rlock hg
            (fun _ _ _ h => by cases h) (fun _ => rfl) before
      | rlocked =>
        simp only [Option.some.injEq] at hstep
        subst hstep
        refine Traced.advance hs ht Access.readCurrentWinner s.auction s.mu s.log hg hnew rfl
          ⟨[], by simp⟩ ?_
        intro before _
        exact Traced.reader_done ht (Goroutine.getWinner (ReaderAt.read s.auction.CurrentWinner))
          Access.readCurrentWinner hg (fun _ _ _ h => by cases h) (fun _ => rfl) before
      | read v =>
        cases hm : s.mu.access g Access.runlock with
        | none => simp [hm] at hstep
        | some m =>
          simp only [hm, Option.some.injEq] at hstep
          subst hstep
          refine Traced.advance hs ht Access.runlock s.auction m s.log hg hnew hm
            ⟨[], by simp⟩ ?_
          intro before _
          exact Traced.reader_done ht (Goroutine.getWinner (ReaderAt.returned v))
            Access.runlock hg (fun _ _ _ h => by cases h) (fun _ => rfl) before
      | returned v => simp at hstep
    | getBidHistory pc =>
      cases pc with
      | start =>
        cases hm : s.mu.access g Access.rlock with
        | none => simp [hm] at hstep
        | some m =>
          simp only [hm, Option.some.injEq] at hstep
          subst hstep
          refine Traced.advance hs ht Access.rlock s.auction m s.log hg hnew hm
            ⟨[], by simp⟩ ?_
          intro before _
          exact Traced.reader_done ht (Goroutine.getBidHistory ReaderAt.rlocked) Access.rlock
            hg (fun _ _ _ h => by cases h) (fun _ => rfl) before
      | rlocked =>
        simp only [Option.some.injEq] at hstep
        subst hstep
        refine Traced.advance hs ht Access.readBids s.auction s.mu s.log hg hnew rfl
          ⟨[], by simp⟩ ?_
        intro before _
        exact Traced.reader_done ht (Goroutine.getBidHistory (ReaderAt.read s.auction.Bids))
          Access.readBids hg (fun _ _ _ h => by cases h) (fun _ => rfl) before
      | read v =>
        cases hm : s.mu.access g Access.runlock with
        | none => simp [hm] at hstep
        | some m =>
          simp only [hm, Option.some.injEq] at hstep
          subst hstep
          refine Traced.advance hs ht Access.runlock s.auction m s.log hg hnew hm
            ⟨[], by simp⟩ ?_
          intro before _
          exact Traced.reader_done ht (Goroutine.getBidHistory (ReaderAt.returned v))
            Access.runlock hg (fun _ _ _ h => by cases h) (fun _ => rfl) before
      | returned v => simp at hstep

/-- Every schedule that can be run keeps the record of accesses right. -/
theorem Traced.exec_traced {a : Auction} (schedule : List Nat) :
    ∀ {s final : System}, Serialized a s → Traced a s → s.exec schedule = some final →
      Traced a final := by
  induction schedule with
  | nil =>
    intro s final _ ht h
    simp only [System.exec, Option.some.injEq] at h
    rw [← h]
    exact ht
  | cons g rest ih =>
    intro s final hs ht h
    unfold System.exec at h
    cases hstep : s.step g with
    | none => simp [hstep] at h
    | some next =>
      simp only [hstep] at h
      exact ih (hs.step_kept g hstep) (ht.step_traced hs g hstep) h

/-- At the start no access has been made. -/
theorem Traced.at_start_traced (a : Auction) (calls : List (Time × Call)) :
    Traced a (System.init a calls) := by
  constructor
  · rfl
  · intro h t before ht _
    simp only [System.init, Option.map_eq_some'] at ht
    obtain ⟨⟨now, c⟩, _, rfl⟩ := ht
    cases c <;> rfl

/-- An access leaves every goroutine with the call that it makes. -/
theorem System.step_restart {s next : System} {g : Nat} (hstep : s.step g = some next)
    (k : Nat) :
    (next.goroutines k).map Goroutine.restart = (s.goroutines k).map Goroutine.restart := by
  have key : ∃ t S x u, s.goroutines g = some t ∧ next = System.advance S g x u ∧
      S.goroutines = s.goroutines ∧ u.restart = t.restart := by
    unfold System.step at hstep
    cases hg : s.goroutines g with
    | none => simp [hg] at hstep
    | some t =>
      rw [hg] at hstep
      cases t with
      | changeTime endAt finished =>
        cases finished with
        | true => simp at hstep
        | false =>
          simp only [Bool.false_eq_true, if_false, Option.some.injEq] at hstep
          exact ⟨_, _, _, _, rfl, hstep.symm, rfl, rfl⟩
      | tryBid now bid pc =>
        cases pc with
        | start =>
          cases hm : s.mu.access g Access.lock with
          | none => simp [hm] at hstep
          | some m =>
            simp only [hm, Option.some.injEq] at hstep
            exact ⟨_, _, _, _, rfl, hstep.symm, rfl, rfl⟩
        | locked =>
          simp only [Option.some.injEq] at hstep
          exact ⟨_, _, _, _, rfl, hstep.symm, rfl, rfl⟩
        | ongoing =>
          simp only [Option.some.injEq] at hstep
          exact ⟨_, _, _, _, rfl, hstep.symm, rfl, rfl⟩
        | reserveMet =>
          simp only [Option.some.injEq] at hstep
          exact ⟨_, _, _, _, rfl, hstep.symm, rfl, rfl⟩
        | winnerNotNil =>
          cases hw : s.auction.CurrentWinner with
          | none => simp [hw] at hstep
          | some w =>
            simp only [hw, Option.some.injEq] at hstep
            exact ⟨_, _, _, _, rfl, hstep.symm, rfl, rfl⟩
        | valid =>
          simp only [Option.some.injEq] at hstep
          exact ⟨_, _, _, _, rfl, hstep.symm, rfl, rfl⟩
        | winnerSet =>
          simp only [Option.some.injEq] at hstep
          exact ⟨_, _, _, _, rfl, hstep.symm, rfl, rfl⟩
        | bidsRead old =>
          simp only [Option.some.injEq] at hstep
          exact ⟨_, _, _, _, rfl, hstep.symm, rfl, rfl⟩
        | leaving err =>
          cases hm : s.mu.access g Access.unlock with
          | none => simp [hm] at hstep
          | some m =>
            simp only [hm, Option.some.injEq] at hstep
            exact ⟨_, _, _, _, rfl, hstep.symm, rfl, rfl⟩
        | returned err => simp at hstep
      | getWinner pc =>
        cases pc with
        | start =>
          cases hm : s.mu.access g Access.rlock with
          | none => simp [hm] at hstep
          | some m =>
            simp only [hm, Option.some.injEq] at hstep
            exact ⟨_, _, _, _, rfl, hstep.symm, rfl, rfl⟩
        | rlocked =>
          simp only [Option.some.injEq] at hstep
          exact ⟨_, _, _, _, rfl, hstep.symm, rfl, rfl⟩
        | read v =>
          cases hm : s.mu.access g Access.runlock with
          | none => simp [hm] at hstep
          | some m =>
            simp only [hm, Option.some.injEq] at hstep
            exact ⟨_, _, _, _, rfl, hstep.symm, rfl, rfl⟩
        | returned v => simp at hstep
      | getBidHistory pc =>
        cases pc with
        | start =>
          cases hm : s.mu.access g Access.rlock with
          | none => simp [hm] at hstep
          | some m =>
            simp only [hm, Option.some.injEq] at hstep
            exact ⟨_, _, _, _, rfl, hstep.symm, rfl, rfl⟩
        | rlocked =>
          simp only [Option.some.injEq] at hstep
          exact ⟨_, _, _, _, rfl, hstep.symm, rfl, rfl⟩
        | read v =>
          cases hm : s.mu.access g Access.runlock with
          | none => simp [hm] at hstep
          | some m =>
            simp only [hm, Option.some.injEq] at hstep
            exact ⟨_, _, _, _, rfl, hstep.symm, rfl, rfl⟩
        | returned v => simp at hstep
  obtain ⟨t, S, x, u, hg, rfl, hS, hu⟩ := key
  by_cases hk : k = g
  · subst hk
    simp [hg, hu]
  · simp [hk, hS]

/-- A schedule leaves every goroutine with the call that it makes. -/
theorem System.exec_restart (schedule : List Nat) :
    ∀ {s final : System}, s.exec schedule = some final → ∀ k,
      (final.goroutines k).map Goroutine.restart = (s.goroutines k).map Goroutine.restart := by
  induction schedule with
  | nil =>
    intro s final h k
    simp only [System.exec, Option.some.injEq] at h
    rw [h]
  | cons g rest ih =>
    intro s final h k
    unfold System.exec at h
    cases hstep : s.step g with
    | none => simp [hstep] at h
    | some next =>
      simp only [hstep] at h
      rw [ih h k, System.step_restart hstep k]

/-- C16: for every set of concurrent calls of TryBid, GetWinner and
GetBidHistory on an auction, one goroutine each, and every interleaving of
their accesses that the goroutines can make under the mutex, at every point of
the interleaving: the accesses made are a schedule that the mutex allows; the
log lists, each once, the TryBid calls that have taken the lock, in the order
in which they took it; whenever no TryBid holds the lock the auction is what
the calls of the log leave when made one at a time, each as a whole, in that
order; a TryBid that has returned has returned the error of its call made at
its turn in that order, and has made the accesses of TryBid on the auction it
found; a value read by GetWinner or GetBidHistory is the winner or the history
of the auction after the first calls of the log, each applied whole, never of
an auction with the winner set and the history not yet appended; while a TryBid
is between its Lock and its Unlock no other goroutine holds the mutex, for
writing or for reading; and no TryBid dereferences a nil CurrentWinner. -/
theorem c16_calls_serialized_in_lock_order (a : Auction) (calls : List (Time × Call))
    (schedule : List Nat) (s : System)
    (hcalls : (calls.all fun c => c.2.takesMutex) = true)
    (hrun : (System.init a calls).exec schedule = some s) :
    MutexState.allows { writer := none, readers := [] } s.trace = true ∧
      (s.log.map Prod.fst).Nodup ∧
      (∀ g now bid, (g, now, bid) ∈ s.log ↔
        ∃ pc, s.goroutines g = some (Goroutine.tryBid now bid pc) ∧ pc ≠ TryBidAt.start) ∧
      (∀ g now bid pc, s.goroutines g = some (Goroutine.tryBid now bid pc) →
        calls.get? g = some (now, Call.tryBid bid)) ∧
      (s.mu.writer = none → s.auction = serialized a s.log) ∧
      (∀ g now bid err,
        s.goroutines g = some (Goroutine.tryBid now bid (TryBidAt.returned err)) →
        ∃ before rest, s.log = before ++ (g, now, bid) :: rest ∧
          (serialized a before).TryBid now bid =
            (err, serialized a (before ++ [(g, now, bid)])) ∧
          accessesOf g s.trace = (serialized a before).TryBidAccesses now bid) ∧
      (∀ g v,
        (s.goroutines g = some (Goroutine.getWinner (ReaderAt.read v)) ∨
          s.goroutines g = some (Goroutine.getWinner (ReaderAt.returned v))) →
        ∃ k, k ≤ s.log.length ∧ v = (serialized a (s.log.take k)).GetWinner) ∧
      (∀ g v, s.goroutines g = some (Goroutine.getWinner (ReaderAt.returned v)) →
        accessesOf g s.trace = GetWinnerAccesses) ∧
      (∀ g v,
        (s.goroutines g = some (Goroutine.getBidHistory (ReaderAt.read v)) ∨
          s.goroutines g = some (Goroutine.getBidHistory (ReaderAt.returned v))) →
        ∃ k, k ≤ s.log.length ∧ v = (serialized a (s.log.take k)).GetBidHistory) ∧
      (∀ g v, s.goroutines g = some (Goroutine.getBidHistory (ReaderAt.returned v)) →
        accessesOf g s.trace = GetBidHistoryAccesses) ∧
      (∀ g now bid pc, s.goroutines g = some (Goroutine.tryBid now bid pc) →
        pc.inside = true →
        s.mu.writer = some g ∧
          ∀ h t, h ≠ g → s.goroutines h = some t →
            t.holdsLock = false ∧ t.holdsRLock = false) ∧
      (∀ g now bid, s.goroutines g = some (Goroutine.tryBid now bid TryBidAt.winnerNotNil) →
        s.auction.CurrentWinner ≠ none) := by
  have hs : Serialized a s := Serialized.exec_kept schedule (Serialized.at_start a calls hcalls) hrun
  have ht : Traced a s :=
    Traced.exec_traced schedule (Serialized.at_start a calls hcalls) (Traced.at_start_traced a calls) hrun
  refine ⟨?_, hs.log_nodup, hs.log_iff, ?_, hs.whole, ?_, hs.winnerRead, ?_, hs.historyRead,
    ?_, ?_, ?_⟩
  · rw [MutexState.allows_eq_after, ht.mutex]
    rfl
  · intro g now bid pc hg
    have h1 := System.exec_restart schedule hrun g
    have h2 : (System.init a calls).goroutines g = (calls.get? g).map Goroutine.start := rfl
    rw [hg, h2] at h1
    cases hc : calls.get? g with
    | none =>
      rw [hc] at h1
      cases h1
    | some c =>
      rw [hc] at h1
      obtain ⟨t, c⟩ := c
      cases c <;> simp [Goroutine.start, Goroutine.restart] at h1
      obtain ⟨rfl, rfl⟩ := h1
      rfl
  · intro g now bid err hg
    obtain ⟨before, rest, hlog, hres⟩ := hs.returned g now bid err hg
    refine ⟨before, rest, hlog, hres, ?_⟩
    exact ht.accesses g _ before hg (fun n b p h0 _ => by
      simp only [Goroutine.tryBid.injEq] at h0
      obtain ⟨rfl, rfl, _⟩ := h0
      exact ⟨rest, hlog⟩)
  · intro g v hg
    exact ht.accesses g _ [] hg (fun n b p h0 _ => by cases h0)
  · intro g v hg
    exact ht.accesses g _ [] hg (fun n b p h0 _ => by cases h0)
  · intro g now bid pc hg hin
    have hw := hs.writer_of_inside hg hin
    refine ⟨hw, ?_⟩
    intro h t hne hh
    constructor
    · cases hl : t.holdsLock
      · rfl
      · have := (hs.writer_iff h).mpr ⟨t, hh, hl⟩
        rw [hw] at this
        exact absurd (Option.some.inj this).symm hne
    · cases hl : t.holdsRLock
      · rfl
      · have hmem := (hs.readers_iff h).mpr ⟨t, hh, hl⟩
        rw [hs.exclusive (by rw [hw]; simp)] at hmem
        cases hmem
  · intro g now bid hg
    obtain ⟨before, _, hprog⟩ := hs.inProgress g now bid _ hg rfl
    simp only [TryBidAt.progress] at hprog
    rw [hprog.1]
    exact hprog.2.2.2

/-- C16 on the test: on the auction whose winner is the bid of 10.0, five
goroutines run the schedule to the end; the lock was taken by the bid of 100.0
and then by the bid of 7.0; the auction is what the two calls leave when made
in that order; the readers before the bid of 100.0 returned the bid of 10.0 and
the history of one bid, and the reader after it returned the bid of 100.0. -/
theorem c16_calls_serialized_in_lock_order_witness :
    (callsConcurrent.all fun c => c.2.takesMutex) = true ∧
      ∃ s, (System.init auctionA callsConcurrent).exec scheduleConcurrent = some s ∧
        s.mu.writer = none ∧
        s.log = [(0, 2000, bid100), (3, 2500, bid7)] ∧
        s.auction = serialized auctionA s.log ∧
        s.auction.Bids = [bid10, bid100] ∧
        s.goroutines 0 = some (Goroutine.tryBid 2000 bid100 (TryBidAt.returned none)) ∧
        s.goroutines 1 = some (Goroutine.getWinner (ReaderAt.returned (some bid10))) ∧
        s.goroutines 2 = some (Goroutine.getBidHistory (ReaderAt.returned [bid10])) ∧
        s.goroutines 3 = some (Goroutine.tryBid 2500 bid7
          (TryBidAt.returned (some BiddingError.ErrBidAmountBelowCurrentBid))) ∧
        s.goroutines 4 = some (Goroutine.getWinner (ReaderAt.returned (some bid100))) := by
  have hsome :
      ((System.init auctionA callsConcurrent).exec scheduleConcurrent).isSome = true := by
    decide
  obtain ⟨s, hs⟩ := Option.isSome_iff_exists.mp hsome
  have h := c16_calls_serialized_in_lock_order auctionA callsConcurrent scheduleConcurrent s
    (by decide) hs
  have hw : ((System.init auctionA callsConcurrent).exec scheduleConcurrent).map
      (fun s => s.mu.writer) = some none := by decide
  have hlog : ((System.init auctionA callsConcurrent).exec scheduleConcurrent).map
      (fun s => s.log) = some [(0, 2000, bid100), (3, 2500, bid7)] := by decide
  have hbids : ((System.init auctionA callsConcurrent).exec scheduleConcurrent).map
      (fun s => s.auction.Bids) = some [bid10, bid100] := by decide
  have hg : ((System.init auctionA callsConcurrent).exec scheduleConcurrent).map
      (fun s => (List.range 5).map s.goroutines) =
      some [some (Goroutine.tryBid 2000 bid100 (TryBidAt.returned none)),
        some (Goroutine.getWinner (ReaderAt.returned (some bid10))),
        some (Goroutine.getBidHistory (ReaderAt.returned [bid10])),
        some (Goroutine.tryBid 2500 bid7
          (TryBidAt.returned (some BiddingError.ErrBidAmountBelowCurrentBid))),
        some (Goroutine.getWinner (ReaderAt.returned (some bid100)))] := by decide
  rw [hs] at hw hlog hbids hg
  simp only [Option.map_some', Option.some.injEq] at hw hlog hbids hg
  simp only [List.range, List.range.loop, List.map_cons, List.map_nil, List.cons.injEq,
    and_true] at hg
  obtain ⟨g0, g1, g2, g3, g4⟩ := hg
  exact ⟨by decide, s, hs, hw, hlog, h.2.2.2.2.1 hw, hbids, g0, g1, g2, g3, g4⟩

/-- The condition of C16 that every call takes the mutex is needed: a goroutine
that calls ChangeTime, which takes no lock, changes the auction while the log of
calls that took the lock stays empty, so the auction is not what the calls of
the log leave. -/
theorem changeTime_call_is_not_serialized :
    ((System.init auctionA [(0, Call.changeTime 1003000)]).exec [0]).map
        (fun s => (s.mu.writer, s.log, decide (s.auction = serialized auctionA s.log))) =
      some (none, [], false) := by
  decide
